import Mathlib

/-!
Verification of the Interactive Script Execution & Parameter Tuning Engine.

This file gives a shallow embedding of the two core components of the
repository:

* `src/utils/parameter_parser.py` — detection of tunable numeric assignments
  by an ordered list of regular expressions, derivation of interactive
  ranges, and line-oriented rewriting of parameter values; and
* `src/utils/code_executor.py` — the result-construction skeleton of
  `execute_code`.

Python strings are modelled as `List Char`; Python numbers are modelled as
exact rationals `ℚ` (the IEEE-754 rounding performed by Python's `float` is
not modelled; every concrete input used below is exactly representable, and
no theorem in this file depends on a comparison that double rounding could
flip).  Each regular expression of the source is compiled by hand into a
deterministic matcher; every such compilation step is justified in a comment
at the definition.
-/

namespace MLPlatform

/-! ### Character classes

`\s` of Python `re` (for the ASCII inputs considered here) is the set
space, tab, newline, carriage return, vertical tab, form feed.
`[a-z_]` under `re.IGNORECASE` is the set of ASCII letters and underscore.
-/

def pyIsSpace (c : Char) : Bool :=
  c == ' ' || c == '\t' || c == '\n' || c == '\r' || c == '\x0b' || c == '\x0c'

def isIdentChar (c : Char) : Bool :=
  ('a' ≤ c && c ≤ 'z') || ('A' ≤ c && c ≤ 'Z') || c == '_'

def isDigitChar (c : Char) : Bool := '0' ≤ c && c ≤ '9'

/-- ASCII lower-casing of one character, as Python's `str.lower` and
`re.IGNORECASE` treat the inputs considered here (spelled as an explicit
table over `A`–`Z`). -/
def toLowerChar (c : Char) : Char :=
  match c with
  | 'A' => 'a' | 'B' => 'b' | 'C' => 'c' | 'D' => 'd' | 'E' => 'e'
  | 'F' => 'f' | 'G' => 'g' | 'H' => 'h' | 'I' => 'i' | 'J' => 'j'
  | 'K' => 'k' | 'L' => 'l' | 'M' => 'm' | 'N' => 'n' | 'O' => 'o'
  | 'P' => 'p' | 'Q' => 'q' | 'R' => 'r' | 'S' => 's' | 'T' => 't'
  | 'U' => 'u' | 'V' => 'v' | 'W' => 'w' | 'X' => 'x' | 'Y' => 'y'
  | 'Z' => 'z' | c => c

def lowerStr (s : List Char) : List Char := s.map toLowerChar

/-! ### Line splitting

`code.split('\n')` and `'\n'.join(lines)` of the source.  Python's
`split('\n')` returns `[""]` on the empty string and never returns an empty
list. -/

def pySplitLines : List Char → List (List Char)
  | [] => [[]]
  | c :: rest =>
    if c == '\n' then [] :: pySplitLines rest
    else
      match pySplitLines rest with
      | [] => [[c]]
      | l :: ls => (c :: l) :: ls

def pyJoinLines : List (List Char) → List Char
  | [] => []
  | [l] => l
  | l :: l2 :: ls => l ++ '\n' :: pyJoinLines (l2 :: ls)

/-! ### Value sub-expressions of the patterns

All eight detection patterns and the rewrite pattern end in either
`([0-9]+)` or `([0-9]*\.?[0-9]+)`, not anchored at the end of the line, so
the regex engine matches the longest value prefix of the remaining text.

For `[0-9]*\.?[0-9]+` greedy matching with backtracking gives: take the
maximal run `d1` of digits; if a literal dot follows and the dot is followed
by at least one digit `d2`, the group is `d1 ++ "." ++ d2` (both stars
greedy); otherwise, if `d1` is nonempty, backtracking splits `d1` into
`[0-9]*` and the final `[0-9]+`, and the group is exactly `d1`; otherwise
the pattern fails. -/

def matchIntValue (cs : List Char) : Option (List Char) :=
  let d := cs.takeWhile isDigitChar
  if d.isEmpty then none else some d

def matchFloatValue (cs : List Char) : Option (List Char) :=
  let d1 := cs.takeWhile isDigitChar
  match cs.dropWhile isDigitChar with
  | '.' :: r2 =>
    let d2 := r2.takeWhile isDigitChar
    if d2.isEmpty then (if d1.isEmpty then none else some d1)
    else some (d1 ++ '.' :: d2)
  | _ => if d1.isEmpty then none else some d1

/-- The `\s*=\s*(VALUE)` tail shared by every pattern.  Both `\s*` are
greedy; the first is safe to take maximally because `'='` is not a space,
the second because a value group never starts with a space. -/
def matchEqValue (useFloat : Bool) (cs : List Char) : Option (List Char) :=
  match cs.dropWhile pyIsSpace with
  | '=' :: cs2 =>
    (if useFloat then matchFloatValue else matchIntValue) (cs2.dropWhile pyIsSpace)
  | _ => none

/-! ### The name shapes of `PARAMETER_PATTERNS`

Each pattern is `^(\s*)(NAME)\s*=\s*(VALUE)` under `re.IGNORECASE`.  The
leading `(\s*)` is greedy and every NAME shape starts with a non-space
character, so the indent group is exactly the maximal space run.  Every
NAME shape consists solely of `[a-z_]` characters (case-insensitively), and
is followed in the pattern by `\s*=\s*`; since an identifier character is
neither a space nor `'='`, a successful match forces group 2 to be exactly
the maximal run of identifier characters after the indent ("the
identifier"), and the shape condition becomes a predicate on the lowered
identifier:

* pattern 1, `[a-z_]*(?:rate|alpha|beta|gamma|epsilon|lambda|eta|momentum|decay)`:
  the identifier ends with one of the listed suffixes;
* pattern 2, `n_[a-z_]+`: the identifier starts with `n_` and has length ≥ 3;
* pattern 3, `max_[a-z_]+` / pattern 4, `min_[a-z_]+`: prefix plus length ≥ 5;
* pattern 5/6/7: the identifier is one of a fixed word list (with
  `epochs?` and `iterations?` contributing both spellings);
* pattern 8, `[a-z_]*(?:_size|_count|_num|_rate|_ratio|_factor|_weight)`:
  the identifier ends with one of the listed suffixes. -/

def p1Suffixes : List (List Char) :=
  [("rate").toList, ("alpha").toList, ("beta").toList, ("gamma").toList,
   ("epsilon").toList, ("lambda").toList, ("eta").toList, ("momentum").toList,
   ("decay").toList]

def p5Words : List (List Char) :=
  [("epoch").toList, ("epochs").toList, ("iteration").toList, ("iterations").toList,
   ("batch_size").toList, ("hidden_size").toList, ("num_layers").toList,
   ("dropout").toList, ("threshold").toList, ("tolerance").toList,
   ("k").toList, ("c").toList, ("degree").toList]

def p6Words : List (List Char) :=
  [("test_size").toList, ("train_size").toList, ("validation_size").toList,
   ("split_ratio").toList, ("ratio").toList]

def p7Words : List (List Char) :=
  [("random_state").toList, ("seed").toList]

def p8Suffixes : List (List Char) :=
  [("_size").toList, ("_count").toList, ("_num").toList, ("_rate").toList,
   ("_ratio").toList, ("_factor").toList, ("_weight").toList]

structure PatternSpec where
  useFloat : Bool
  nameOk : List Char → Bool

def nameOkP1 (lid : List Char) : Bool := p1Suffixes.any (fun suf => suf.isSuffixOf lid)
def nameOkP2 (lid : List Char) : Bool :=
  (("n_").toList).isPrefixOf lid && decide (3 ≤ lid.length)
def nameOkP3 (lid : List Char) : Bool :=
  (("max_").toList).isPrefixOf lid && decide (5 ≤ lid.length)
def nameOkP4 (lid : List Char) : Bool :=
  (("min_").toList).isPrefixOf lid && decide (5 ≤ lid.length)
def nameOkP5 (lid : List Char) : Bool := p5Words.contains lid
def nameOkP6 (lid : List Char) : Bool := p6Words.contains lid
def nameOkP7 (lid : List Char) : Bool := p7Words.contains lid
def nameOkP8 (lid : List Char) : Bool := p8Suffixes.any (fun suf => suf.isSuffixOf lid)

/-- `PARAMETER_PATTERNS` of the source, in order; `useFloat` records whether
the value group is `[0-9]*\.?[0-9]+` (true) or `[0-9]+` (false). -/
def PARAMETER_PATTERNS : List PatternSpec :=
  [⟨true, nameOkP1⟩, ⟨false, nameOkP2⟩, ⟨false, nameOkP3⟩, ⟨true, nameOkP4⟩,
   ⟨true, nameOkP5⟩, ⟨true, nameOkP6⟩, ⟨false, nameOkP7⟩, ⟨true, nameOkP8⟩]

structure LineHit where
  indent : List Char
  name : List Char
  valueStr : List Char
deriving DecidableEq

/-- `re.match(pattern, line, re.IGNORECASE)` for one detection pattern,
returning the three capture groups.  A NAME shape matches the empty
identifier under none of the eight predicates, so the emptiness guard is
equivalent to the regex behaviour. -/
def matchPatternLine (spec : PatternSpec) (line : List Char) : Option LineHit :=
  let indent := line.takeWhile pyIsSpace
  let rest := line.dropWhile pyIsSpace
  let ident := rest.takeWhile isIdentChar
  if ident.isEmpty then none
  else if spec.nameOk (lowerStr ident) then
    match matchEqValue spec.useFloat (rest.dropWhile isIdentChar) with
    | some v => some ⟨indent, ident, v⟩
    | none => none
  else none

/-- The inner `for pattern in PARAMETER_PATTERNS` loop of `detect_parameters`:
first matching pattern wins, except that a hit whose name was already seen
is skipped (`continue`) and the remaining patterns are still tried. -/
def tryPatterns (seen : List (List Char)) (line : List Char) : List PatternSpec → Option LineHit
  | [] => none
  | spec :: rest =>
    match matchPatternLine spec line with
    | some hit => if seen.contains hit.name then tryPatterns seen line rest else some hit
    | none => tryPatterns seen line rest

def scanLine (seen : List (List Char)) (line : List Char) : Option LineHit :=
  tryPatterns seen line PARAMETER_PATTERNS

/-! ### Numeric literals -/

def digitVal (c : Char) : ℕ := c.toNat - 48

def digitsToNat (ds : List Char) : ℕ := ds.foldl (fun acc c => 10 * acc + digitVal c) 0

/-- Python `int(value_str)` on an all-digit string. -/
def parseIntStr (ds : List Char) : ℚ := (digitsToNat ds : ℚ)

/-- Python `float(value_str)` on a string of shape `d1`, `d1.d2` or `.d2`
(the only shapes the value group can produce), modelled exactly:
`d1.d2` denotes `(d1 * 10^|d2| + d2) / 10^|d2|`, built with `mkRat` so that
it evaluates by kernel reduction. -/
def parseFloatStr (ds : List Char) : ℚ :=
  let ip := ds.takeWhile (fun c => !(c == '.'))
  match ds.dropWhile (fun c => !(c == '.')) with
  | _ :: fp =>
    mkRat ((digitsToNat ip * 10 ^ fp.length + digitsToNat fp : ℕ) : ℤ) (10 ^ fp.length)
  | [] => (digitsToNat ip : ℚ)

/-! ### The `Parameter` dataclass -/

inductive ParamKind
  | int
  | float
deriving DecidableEq

structure Parameter where
  name : List Char
  value : ℚ
  line_number : ℕ
  original_text : List Char
  param_type : ParamKind
  min_value : ℚ
  max_value : ℚ
  step : ℚ
deriving DecidableEq

/-- Python `int(q)`: truncation toward zero. -/
def pyTrunc (q : ℚ) : ℤ := if 0 ≤ q then ⌊q⌋ else -⌊-q⌋

/-- Python `abs` on an exact rational. -/
def qabs (q : ℚ) : ℚ := if q < 0 then -q else q

/-- Scaling a rational by an integer, `v * k`, built with `mkRat` so that
it evaluates by kernel reduction. -/
def qscale (v : ℚ) (k : ℤ) : ℚ := mkRat (v.num * k) v.den

/-- `Parameter.__post_init__`, `min_value` branch (both float sub-branches
of the source assign `0.0`).  `max(0, int(self.value) - 100)` is integer
arithmetic in Python and is computed in `ℤ` here. -/
def defaultMinValue : ParamKind → ℚ → ℚ
  | .int, v => ((max 0 (pyTrunc v - 100) : ℤ) : ℚ)
  | .float, _ => 0

/-- `Parameter.__post_init__`, `max_value` branch;
`max(int(v) + 100, int(v) * 3)` is integer arithmetic in Python. -/
def defaultMaxValue : ParamKind → ℚ → ℚ
  | .int, v => ((max (pyTrunc v + 100) (pyTrunc v * 3) : ℤ) : ℚ)
  | .float, v =>
    if qabs v < 1 then 1 else if qabs v < 10 then qscale v 5 else qscale v 3

/-- `Parameter.__post_init__`, `step` branch. -/
def defaultStep : ParamKind → ℚ → ℚ
  | .int, _ => 1
  | .float, v =>
    if qabs v < mkRat 1 100 then mkRat 1 1000
    else if qabs v < mkRat 1 10 then mkRat 1 100
    else if qabs v < 1 then mkRat 1 20
    else mkRat 1 10

/-- A `Parameter(...)` construction with `min_value`, `max_value`, `step`
left `None`, followed by `__post_init__`. -/
def mkDefaultParameter (name : List Char) (value : ℚ) (ln : ℕ)
    (otext : List Char) (ty : ParamKind) : Parameter :=
  ⟨name, value, ln, otext, ty,
   defaultMinValue ty value, defaultMaxValue ty value, defaultStep ty value⟩

/-! ### `apply_parameter_hints` -/

/-- Python `needle in hay` on strings. -/
def containsTok (hay needle : List Char) : Bool :=
  hay.tails.any (fun t => needle.isPrefixOf t)

def hintWords1 : List (List Char) :=
  [("rate").toList, ("alpha").toList, ("eta").toList, ("epsilon").toList]
def hintWords2 : List (List Char) :=
  [("dropout").toList, ("ratio").toList, ("size").toList]
def hintWords3 : List (List Char) :=
  [("epoch").toList, ("iteration").toList, ("batch").toList]
def hintWords4 : List (List Char) :=
  [("depth").toList, ("layer").toList, ("level").toList]
def hintWords6 : List (List Char) :=
  [("random").toList, ("seed").toList]
def hintWords8 : List (List Char) :=
  [("momentum").toList, ("decay").toList, ("beta").toList, ("gamma").toList]

def apply_parameter_hints (p : Parameter) : Parameter :=
  let nl := lowerStr p.name
  if hintWords1.any (fun w => containsTok nl w) then
    { p with min_value := mkRat 1 10000, max_value := 1,
             step := if p.value < mkRat 1 100 then mkRat 1 10000 else mkRat 1 1000 }
  else if hintWords2.any (fun w => containsTok nl w) && decide (p.value ≤ 1) then
    { p with min_value := 0, max_value := 1, step := mkRat 1 20 }
  else if hintWords3.any (fun w => containsTok nl w) then
    { p with min_value := 1, max_value := ((max 1000 (pyTrunc p.value * 5) : ℤ) : ℚ),
             step := if p.value < 100 then 1 else 10 }
  else if hintWords4.any (fun w => containsTok nl w) then
    { p with min_value := 1, max_value := 50, step := 1 }
  else if (("n_").toList).isPrefixOf nl || (("num_").toList).isPrefixOf nl then
    { p with min_value := 1, max_value := ((max 100 (pyTrunc p.value * 5) : ℤ) : ℚ), step := 1 }
  else if hintWords6.any (fun w => containsTok nl w) then
    { p with min_value := 0, max_value := 9999, step := 1 }
  else if nl == ("c").toList || nl == ("lambda").toList || nl == ("lambda_").toList then
    { p with min_value := mkRat 1 1000, max_value := 100, step := mkRat 1 10 }
  else if hintWords8.any (fun w => containsTok nl w) then
    { p with min_value := 0, max_value := 1, step := mkRat 1 100 }
  else p

/-- The body of the `if match:` block of `detect_parameters`: type and value
from the lexical form of the value group, `original_text`, defaults, hints. -/
def mkParamOfHit (hit : LineHit) (ln : ℕ) : Parameter :=
  let isFl := hit.valueStr.contains '.'
  let ty := if isFl then ParamKind.float else ParamKind.int
  let v := if isFl then parseFloatStr hit.valueStr else parseIntStr hit.valueStr
  let otext := hit.name ++ (" = ").toList ++ hit.valueStr
  apply_parameter_hints (mkDefaultParameter hit.name v ln otext ty)

/-- The per-line loop of `detect_parameters`.  Python's
`line.strip()` emptiness / `startswith('#')` tests are equivalent to
testing the front-stripped line, since `strip` removes only whitespace. -/
def detectGo : List (List Char) → ℕ → List (List Char) → List Parameter → List Parameter
  | [], _, _, acc => acc
  | l :: ls, ln, seen, acc =>
    let s := l.dropWhile pyIsSpace
    if s.isEmpty || s.head? == some '#' then detectGo ls (ln + 1) seen acc
    else
      match scanLine seen l with
      | some hit => detectGo ls (ln + 1) (hit.name :: seen) (acc ++ [mkParamOfHit hit ln])
      | none => detectGo ls (ln + 1) seen acc

def detect_parameters (code : List Char) : List Parameter :=
  detectGo (pySplitLines code) 1 [] []

def has_adjustable_parameters (code : List Char) : Bool :=
  !(detect_parameters code).isEmpty

/-! ### `update_code_with_parameters` -/

/-- An update-mapping value: a Python `int` or `float`. -/
inductive PyNum
  | int (n : ℤ)
  | float (q : ℚ)
deriving DecidableEq

def PyNum.toRat : PyNum → ℚ
  | .int n => n
  | .float q => q

def digitChar : ℕ → Char
  | 0 => '0' | 1 => '1' | 2 => '2' | 3 => '3' | 4 => '4'
  | 5 => '5' | 6 => '6' | 7 => '7' | 8 => '8' | _ => '9'

def natDigitsGo : ℕ → ℕ → List Char
  | 0, _ => []
  | fuel + 1, n =>
    if n < 10 then [digitChar n]
    else natDigitsGo fuel (n / 10) ++ [digitChar (n % 10)]

/-- Decimal rendering of a natural number, as `str` produces it. -/
def natDigits (n : ℕ) : List Char := natDigitsGo (n + 1) n

/-- Python `str` on an `int`. -/
def intDigits (n : ℤ) : List Char :=
  if n < 0 then '-' :: natDigits n.natAbs else natDigits n.toNat

def stripTrailingZeros (ds : List Char) : List Char :=
  (ds.reverse.dropWhile (fun c => c == '0')).reverse

/-- `f"{v:.6f}".rstrip('0').rstrip('.')` for `v ≥ 0`: round to six decimal
places, render with exactly six fractional digits, then strip trailing
zeros and a trailing dot.  Since the integer digits are followed by the
dot, the stripping only ever removes fractional zeros and the dot, which is
what the explicit integer/fraction construction below produces.  Exact
decimal ties (where printf would round the underlying double to even) are
modelled as round half up; no theorem below evaluates this function at a
tie. -/
def format6Abs (q : ℚ) : List Char :=
  -- `⌊q * 10^6 + 1/2⌋`, computed as `(2 * num * 10^6 + den).fdiv (2 * den)`
  -- (floored integer division; the denominator of a `Rat` is positive)
  let scaled : ℤ := (2 * q.num * 1000000 + (q.den : ℤ)).fdiv (2 * (q.den : ℤ))
  let ip := scaled.toNat / 1000000
  let fp := scaled.toNat % 1000000
  let ds := natDigits fp
  let frac := stripTrailingZeros (List.replicate (6 - ds.length) '0' ++ ds)
  if frac.isEmpty then natDigits ip
  else natDigits ip ++ '.' :: frac

def formatFloat (q : ℚ) : List Char :=
  if q < 0 then '-' :: format6Abs (-q) else format6Abs q

/-- The value-formatting block of `update_code_with_parameters`. -/
def formatPyNum : PyNum → List Char
  | .int n => intDigits n
  | .float q => if q = ((pyTrunc q : ℤ) : ℚ) then intDigits (pyTrunc q) else formatFloat q

def caseInsensStarts (pat s : List Char) : Bool :=
  (lowerStr pat).isPrefixOf (lowerStr s)

/-- Does `rf'^(\s*)({re.escape(name)})\s*=\s*([0-9]*\.?[0-9]+)'` match the
line with the greedy `(\s*)` group matching exactly `k` characters?
`re.escape` makes the name a literal, still matched case-insensitively. -/
def rewriteTryAt (name line : List Char) (k : ℕ) : Bool :=
  caseInsensStarts name (line.drop k) &&
    (matchEqValue true ((line.drop k).drop name.length)).isSome

/-- Greedy backtracking for the `(\s*)` group of the rewrite pattern: the
longest space run that leaves a match wins, and the group (the rewritten
line's preserved indentation) is those `k` characters. -/
def rewriteFindIndent (name line : List Char) : ℕ → Option (List Char)
  | 0 => if rewriteTryAt name line 0 then some (line.take 0) else none
  | k + 1 =>
    if rewriteTryAt name line (k + 1) then some (line.take (k + 1))
    else rewriteFindIndent name line k

def lineRewriteIndent (name line : List Char) : Option (List Char) :=
  rewriteFindIndent name line (line.takeWhile pyIsSpace).length

/-- The inner `for i, line in enumerate(lines)` loop of
`update_code_with_parameters`: replace the first matching line with
`f"{indent}{param_name} = {value_str}"` and stop. -/
def applyParamUpdate (name : List Char) (v : PyNum) : List (List Char) → List (List Char)
  | [] => []
  | l :: ls =>
    match lineRewriteIndent name l with
    | some ind => (ind ++ (name ++ ((" = ").toList ++ formatPyNum v))) :: ls
    | none => l :: applyParamUpdate name v ls

/-- `update_code_with_parameters`; the update dictionary is modelled as an
association list iterated in insertion order, as Python iterates a `dict`. -/
def update_code_with_parameters (code : List Char) (updates : List (List Char × PyNum)) : List Char :=
  pyJoinLines (updates.foldl (fun L e => applyParamUpdate e.1 e.2 L) (pySplitLines code))

/-! ### The execution engine (`src/utils/code_executor.py`)

`execute_code` runs an arbitrary Python script; the script's own semantics
are not embedded.  Instead a script is modelled by its observable behaviour
when compiled and executed once in a fresh namespace: an optional
compile-time (`SyntaxError`) failure, and otherwise a run trace consisting
of the text written to stdout and stderr up to the point where the run ends,
the exception terminating the run (if any), and the sequence of top-level
bindings the script created in the namespace (the state of the namespace's
new entries when the run ends, names distinct, in creation order) — these
bindings exist in the namespace even when the run then fails, which is
exactly what lets us check that `execute_code` still discards them.
`execute_code` below is the literal control-flow skeleton of the source
over this model.  The body guards the work with `except SyntaxError` and
`except Exception` only, so a raised exception follows one of three paths:
caught by the first clause, caught by the second, or — when it is a
`BaseException` that is not an `Exception`, such as `SystemExit`,
`KeyboardInterrupt` or `GeneratorExit` — caught by neither, in which case
it propagates out of `execute_code` to its caller.  The embedding returns
`Except PyExc ExecResult`: `Except.ok` is the returned result dictionary
and `Except.error` is the exception propagating uncaught. -/

inductive PyVal
  | none
  | int (n : ℤ)
  | str (s : List Char)
deriving DecidableEq

/-- Where a raised exception sits in the `except` hierarchy of the source:
an instance of `SyntaxError` (caught by the first clause, for a compile
failure and equally for a script raising `SyntaxError` itself); an
instance of `Exception` that is not a `SyntaxError` (caught by the second
clause); or a `BaseException` that is not an `Exception` — `SystemExit`,
`KeyboardInterrupt`, `GeneratorExit` — which neither clause catches. -/
inductive PyExcClass
  | syntaxError
  | exception
  | baseOnly
deriving DecidableEq

/-- A raised exception: its class in the `except` hierarchy, `str(e)`, and
the text `traceback.format_exc()` produces for it. -/
structure PyExc where
  cls : PyExcClass
  msg : List Char
  traceback : List Char
deriving DecidableEq

structure RunTrace where
  stdoutText : List Char
  stderrText : List Char
  exc : Option PyExc
  binds : List (List Char × PyVal)
deriving DecidableEq

structure Script where
  compileErr : Option PyExc
  run : RunTrace
deriving DecidableEq

structure ExecResult where
  success : Bool
  output : List Char
  error : Option (List Char)
  result : PyVal
  vars : List (List Char × PyVal)
deriving DecidableEq

/-- `builtin_names` of the source (the pre-bound library handles, the
dataset name and the reserved builtins entry); membership in this fixed
set is tested regardless of which libraries imported successfully. -/
def builtinNames : List (List Char) :=
  [("pd").toList, ("np").toList, ("plt").toList, ("sns").toList,
   ("sklearn").toList, ("scipy").toList, ("plotly").toList,
   ("df").toList, ("__builtins__").toList]

/-- `output = stdout_output (+ "\n[STDERR]\n" + stderr_output if nonempty)`. -/
def combineOutput (out err : List Char) : List Char :=
  if err.isEmpty then out else out ++ ("\n[STDERR]\n").toList ++ err

def syntaxErrorText (e : PyExc) : List Char :=
  ("Syntax Error: ").toList ++ e.msg ++ '\n' :: e.traceback

def runtimeErrorText (e : PyExc) : List Char :=
  ("Error: ").toList ++ e.msg ++ '\n' :: e.traceback

/-- Which of the two `except` clauses catches an exception they can catch,
and the error text that clause builds: `except SyntaxError` comes first and
also catches a `SyntaxError` raised by the script at run time; every other
`Exception` — including a non-`SyntaxError` raised by `compile()` itself,
such as a `ValueError` or `MemoryError` — falls to `except Exception`. -/
def excText (e : PyExc) : List Char :=
  if e.cls = PyExcClass.syntaxError then syntaxErrorText e else runtimeErrorText e

def startsWithDunder (nm : List Char) : Bool := (("__").toList).isPrefixOf nm

/-- `execute_code(code, data, timeout)`.  `data` is bound as `df` in the
namespace and `timeout` is accepted but never read, exactly as in the
source (`allowed_modules`, likewise unused, is omitted).  On a compile
failure nothing has run, so both capture buffers are empty.  `result` and
`variables` are assigned only after a successful `exec`, so a failing run
leaves their initial values `None` / `{}`; the variables filter drops
reserved double-underscore names and every name in `builtin_names`, keeping
the script's bindings in creation order.  An exception of a class neither
clause catches propagates to the caller (`Except.error`), whether it was
raised at compile time or at run time. -/
def execute_code (s : Script) (data : PyVal) (timeout : ℕ) : Except PyExc ExecResult :=
  match s.compileErr with
  | some e =>
    if e.cls = PyExcClass.baseOnly then Except.error e
    else Except.ok
      { success := false, output := combineOutput [] [],
        error := some (excText e), result := PyVal.none, vars := [] }
  | none =>
    let t := s.run
    match t.exc with
    | some e =>
      if e.cls = PyExcClass.baseOnly then Except.error e
      else Except.ok
        { success := false, output := combineOutput t.stdoutText t.stderrText,
          error := some (excText e), result := PyVal.none, vars := [] }
    | none =>
      let res :=
        match List.lookup (("result").toList) t.binds with
        | some v => v
        | none =>
          match List.lookup (("output").toList) t.binds with
          | some v => v
          | none => PyVal.none
      Except.ok
        { success := true, output := combineOutput t.stdoutText t.stderrText,
          error := none, result := res,
          vars := t.binds.filter
            (fun b => !startsWithDunder b.1 && !builtinNames.contains b.1) }

/-- True when the call fails (at compile time or at run time). -/
def scriptFails (s : Script) : Bool :=
  s.compileErr.isSome || (s.compileErr.isNone && s.run.exc.isSome)

/-! ### Notions used to state and prove the rewrite-engine properties -/

/-- The identifier of a line: the maximal run of identifier characters
after the leading whitespace (what group 2 of every detection pattern
captures when the pattern matches, see above). -/
def identOf (line : List Char) : List Char :=
  (line.dropWhile pyIsSpace).takeWhile isIdentChar

/-- Whether `update_code_with_parameters`' per-name pattern matches a line. -/
def rwMatch (name line : List Char) : Bool :=
  (lineRewriteIndent name line).isSome

/-- The index of the first line the per-name rewrite pattern matches —
the only line `applyParamUpdate` may change. -/
def firstMatchIdx (name : List Char) : List (List Char) → Option ℕ
  | [] => none
  | l :: ls =>
    if rwMatch name l then some 0 else (firstMatchIdx name ls).map (· + 1)

/-- A well-behaved update name: nonempty, with no whitespace and no `'='`
inside (every Python identifier is of this form).  The degenerate names
excluded here make the greedy `(\s*)` group of the rewrite pattern
ambiguous. -/
def goodName (n : List Char) : Prop :=
  n ≠ [] ∧ ∀ c ∈ n, pyIsSpace c = false ∧ c ≠ '='

instance (n : List Char) : Decidable (goodName n) := by
  unfold goodName; infer_instance

/-- The replacement text `f"{indent}{param_name} = {value_str}"`. -/
def canonLine (ind name : List Char) (v : PyNum) : List Char :=
  ind ++ (name ++ ((" = ").toList ++ formatPyNum v))

/-- Two lines that agree on leading whitespace and on matchability by every
well-behaved rewrite pattern; rewriting preserves this relation, which is
what makes repeated rewriting stable. -/
def LineSim (l l' : List Char) : Prop :=
  l.takeWhile pyIsSpace = l'.takeWhile pyIsSpace ∧
  ∀ n, goodName n → rwMatch n l = rwMatch n l'

/-- The update entry that determines the final content of line `j` after
folding the whole update mapping over the lines `L0`: the last entry whose
first matching line is `j`, if any. -/
def lastWriteEntry (L0 : List (List Char)) : List (List Char × PyNum) → ℕ → Option (List Char × PyNum)
  | [], _ => none
  | e :: rest, j =>
    match lastWriteEntry L0 rest j with
    | some x => some x
    | none => if firstMatchIdx e.1 L0 = some j then some e else none

/-- All update values nonnegative and all update names well-behaved. -/
def GoodUpdates (u : List (List Char × PyNum)) : Prop :=
  ∀ e ∈ u, goodName e.1 ∧ 0 ≤ e.2.toRat

instance (u : List (List Char × PyNum)) : Decidable (GoodUpdates u) := by
  unfold GoodUpdates; infer_instance

/-- The name a fresh scan of one line would report: the detection result of
the line alone (no comment/blank skipping applies to lines whose stripped
form is empty or starts with `#`; such lines report nothing). -/
def rawLineName (line : List Char) : Option (List Char) :=
  let s := line.dropWhile pyIsSpace
  if s.isEmpty || s.head? == some '#' then none
  else (tryPatterns [] line PARAMETER_PATTERNS).map (·.name)

/-- The index of the first line whose fresh scan reports `name` — the
occurrence `detect_parameters` keeps for that name. -/
def firstDetectIdx (name : List Char) : List (List Char) → Option ℕ
  | [] => none
  | l :: ls =>
    if rawLineName l = some name then some 0 else (firstDetectIdx name ls).map (· + 1)

/-! ### Definitions used by individual claim instances -/

/-- The disjunction of the guard conditions of `apply_parameter_hints`:
true exactly when some semantic name-based override is applied. -/
def hintApplies (name : List Char) (v : ℚ) : Bool :=
  let nl := lowerStr name
  (hintWords1.any (fun w => containsTok nl w)) ||
  (hintWords2.any (fun w => containsTok nl w) && decide (v ≤ 1)) ||
  (hintWords3.any (fun w => containsTok nl w)) ||
  (hintWords4.any (fun w => containsTok nl w)) ||
  ((("n_").toList).isPrefixOf nl || (("num_").toList).isPrefixOf nl) ||
  (hintWords6.any (fun w => containsTok nl w)) ||
  (nl == ("c").toList || nl == ("lambda").toList || nl == ("lambda_").toList) ||
  (hintWords8.any (fun w => containsTok nl w))

/-- A concrete failing run for C10: the script prints `hi`, writes `oops`
to stderr, binds `x` and `result`, then raises; the result still has no
variables, a `None` result, and the captured pre-failure output. -/
def failingTraceScript : Script :=
  ⟨none,
   ⟨("hi\n").toList, ("oops").toList,
    some ⟨PyExcClass.exception, ("x").toList, ("tb").toList⟩,
    [((("x").toList), PyVal.int 5), ((("result").toList), PyVal.int 9)]⟩⟩

/-- C1 counterexample: the observable behaviour of a script executing
`raise SystemExit(1)` — the exception is a `BaseException` but not an
`Exception`, so neither `except` clause catches it. -/
def systemExitScript : Script :=
  ⟨none, ⟨[], [], some ⟨PyExcClass.baseOnly, ("1").toList, ("tb").toList⟩, []⟩⟩

/-- A run failing with an ordinary (non-`SyntaxError`) `Exception`, used to
exercise the amended capture theorem at a concrete input. -/
def typeErrorScript : Script :=
  ⟨none, ⟨("go\n").toList, [],
    some ⟨PyExcClass.exception, ("boom").toList, ("tb2").toList⟩, []⟩⟩

/-- C7 counterexample: the claim's general part — that the error text's
label always distinguishes the failing phase — is false.  A script that
itself raises `SyntaxError("bad")` at run time is caught by the
`except SyntaxError` clause and labelled `Syntax Error:`; indeed, in this
model its entire result coincides with that of a script failing at compile
time with the same message and traceback, so no function of the result can
identify the phase. -/
def runtimeSyntaxErrScript : Script :=
  ⟨none, ⟨[], [], some ⟨PyExcClass.syntaxError, ("bad").toList, ("tb").toList⟩, []⟩⟩

def compileErrScript : Script :=
  ⟨some ⟨PyExcClass.syntaxError, ("bad").toList, ("tb").toList⟩, ⟨[], [], none, []⟩⟩

def valueErrorTb : List Char :=
  ("Traceback (most recent call last):\n  File \"<user_code>\", line 4, in <module>\nValueError: x\n").toList

/-- The observable behaviour of the scenario script ending in
`raise ValueError("x")`. -/
def valueErrorScript : Script :=
  ⟨none, ⟨[], [], some ⟨PyExcClass.exception, ("x").toList, valueErrorTb⟩, []⟩⟩

/-- The parameter detected on `max_iter = 500` (no semantic override
applies to this name, so the default integer range `[400, 1500]` holds). -/
def maxIterParam : Parameter :=
  { name := ("max_iter").toList, value := 500, line_number := 1,
    original_text := ("max_iter = 500").toList, param_type := ParamKind.int,
    min_value := 400, max_value := 1500, step := 1 }

/-! ## Theorems about the execution engine -/

/-- C1 counterexample: `execute_code` does raise to its caller.  For the
script executing `raise SystemExit(1)` — whose exception is a
`BaseException` but not an `Exception` — neither `except` clause catches,
the exception propagates out of `execute_code`, and no result dictionary
(in particular no `error` field) is produced. -/
theorem execute_code_propagates_base_exception :
    execute_code systemExitScript PyVal.none 30 =
      Except.error ⟨PyExcClass.baseOnly, ("1").toList, ("tb").toList⟩ ∧
    ∀ r : ExecResult, execute_code systemExitScript PyVal.none 30 ≠ Except.ok r := by
  refine ⟨rfl, ?_⟩
  intro r h
  exact Except.noConfusion h

/-- C1 amended: whenever every exception the call raises (at compile time
or at run time) is an instance of `Exception`, `execute_code` returns a
result dictionary: the call succeeds exactly when neither compilation nor
execution fails, and on any failure the `error` field holds the
descriptive text built by the clause that caught the exception while
`success` is `false`.  A `BaseException` that is not an `Exception`
(`SystemExit`, `KeyboardInterrupt`, `GeneratorExit`) escapes both clauses
and propagates to the caller instead (see the counterexample). -/
theorem execute_code_captures_all_failures (s : Script) (d : PyVal) (t : ℕ)
    (hc : ∀ e, s.compileErr = some e → e.cls ≠ PyExcClass.baseOnly)
    (hr : ∀ e, s.run.exc = some e → e.cls ≠ PyExcClass.baseOnly) :
    ∃ r, execute_code s d t = Except.ok r ∧
      r.success = !scriptFails s ∧
      (r.error =
        match s.compileErr with
        | some e => some (excText e)
        | none => s.run.exc.map excText) := by
  rcases s with ⟨ce, out, err, exc, binds⟩
  cases ce with
  | some e =>
    refine ⟨⟨false, combineOutput [] [], some (excText e), PyVal.none, []⟩, ?_, rfl, rfl⟩
    simp only [execute_code]
    rw [if_neg (hc e rfl)]
  | none =>
    cases exc with
    | some e =>
      refine ⟨⟨false, combineOutput out err, some (excText e), PyVal.none, []⟩, ?_, rfl, rfl⟩
      simp only [execute_code]
      rw [if_neg (hr e rfl)]
    | none => exact ⟨_, rfl, rfl, rfl⟩

theorem execute_code_captures_all_failures_witness :
    ∃ r, execute_code typeErrorScript PyVal.none 30 = Except.ok r ∧
      r.success = !scriptFails typeErrorScript ∧
      (r.error =
        match typeErrorScript.compileErr with
        | some e => some (excText e)
        | none => typeErrorScript.run.exc.map excText) :=
  execute_code_captures_all_failures typeErrorScript PyVal.none 30
    (fun e h => by cases h) (fun e h => by cases h; decide)

/-- C9: the execution budget is accepted but never read, so it has no
effect whatsoever on the outcome, the propagating path included. -/
theorem execute_code_ignores_timeout (s : Script) (d : PyVal) (t1 t2 : ℕ) :
    execute_code s d t1 = execute_code s d t2 := rfl

/-- C10: whenever `execute_code` returns a result reporting failure, the
returned `variables` mapping is empty and `result` is `None` — even though
the run trace may record bindings the script created before failing —
while `output` still carries the text captured on stdout and stderr up to
the failure (nothing for a compile failure, since the script never ran). -/
theorem execute_code_failure_discards_state (s : Script) (d : PyVal) (t : ℕ)
    (r : ExecResult) (h : execute_code s d t = Except.ok r)
    (hs : r.success = false) :
    r.vars = [] ∧
    r.result = PyVal.none ∧
    r.output =
      combineOutput (if s.compileErr.isSome then [] else s.run.stdoutText)
                    (if s.compileErr.isSome then [] else s.run.stderrText) := by
  rcases s with ⟨ce, out, err, exc, binds⟩
  cases ce with
  | some e =>
    simp only [execute_code] at h
    split at h
    · cases h
    · cases h
      exact ⟨rfl, rfl, rfl⟩
  | none =>
    cases exc with
    | some e =>
      simp only [execute_code] at h
      split at h
      · cases h
      · cases h
        exact ⟨rfl, rfl, rfl⟩
    | none =>
      simp only [execute_code] at h
      cases h
      cases hs

theorem execute_code_failure_discards_state_witness :
    ∃ r, execute_code failingTraceScript PyVal.none 30 = Except.ok r ∧
      r.success = false ∧ r.vars = [] ∧ r.result = PyVal.none ∧
      r.output = ("hi\n\n[STDERR]\noops").toList := by
  have h : execute_code failingTraceScript PyVal.none 30 =
      Except.ok ⟨false, ("hi\n\n[STDERR]\noops").toList,
        some (("Error: x\ntb").toList), PyVal.none, []⟩ := rfl
  have h2 := execute_code_failure_discards_state failingTraceScript PyVal.none 30 _ h rfl
  exact ⟨_, h, rfl, h2.1, h2.2.1, rfl⟩

theorem runtime_syntax_error_label_ambiguous :
    runtimeSyntaxErrScript.compileErr = none ∧
    runtimeSyntaxErrScript.run.exc.isSome = true ∧
    execute_code runtimeSyntaxErrScript PyVal.none 30 =
      Except.ok ⟨false, [], some (("Syntax Error: bad\ntb").toList), PyVal.none, []⟩ ∧
    compileErrScript.compileErr.isSome = true ∧
    execute_code compileErrScript PyVal.none 30 =
      execute_code runtimeSyntaxErrScript PyVal.none 30 := by
  refine ⟨rfl, rfl, rfl, rfl, rfl⟩

/-- C7 amended: a failure the `except` clauses catch produces
`success = false` with a captured, labelled error text: a compile-time
`SyntaxError` is labelled `Syntax Error: `; any other `Exception` — raised
by `compile()` itself or by the running script — is labelled `Error: `
(the prefixes are mutually exclusive); but the label does not always
identify the phase: a non-`SyntaxError` failure of `compile()` gets the
run-time label, and a script raising `SyntaxError` at run time gets the
compile-time label (see the counterexample).  A `BaseException`-only
exception propagates uncaught with no result at all.  The
`raise ValueError("x")` scenario behaves as the claim states: a run-time
label, with `ValueError` appearing in the traceback part of the text. -/
theorem error_labels_identify_phase (s : Script) (d : PyVal) (t : ℕ) :
    (∀ ce, s.compileErr = some ce → ce.cls = PyExcClass.syntaxError →
      execute_code s d t =
        Except.ok ⟨false, combineOutput [] [], some (syntaxErrorText ce), PyVal.none, []⟩ ∧
      (("Syntax Error: ").toList).isPrefixOf (syntaxErrorText ce) = true) ∧
    (∀ ce, s.compileErr = some ce → ce.cls = PyExcClass.exception →
      execute_code s d t =
        Except.ok ⟨false, combineOutput [] [], some (runtimeErrorText ce), PyVal.none, []⟩) ∧
    (∀ e, s.compileErr = none → s.run.exc = some e → e.cls = PyExcClass.exception →
      execute_code s d t =
        Except.ok ⟨false, combineOutput s.run.stdoutText s.run.stderrText,
          some (runtimeErrorText e), PyVal.none, []⟩ ∧
      (("Error: ").toList).isPrefixOf (runtimeErrorText e) = true ∧
      (("Syntax Error: ").toList).isPrefixOf (runtimeErrorText e) = false) ∧
    (∀ e, s.compileErr = none → s.run.exc = some e → e.cls = PyExcClass.baseOnly →
      execute_code s d t = Except.error e) := by
  refine ⟨?_, ?_, ?_, ?_⟩
  · intro ce hce hcls
    rcases s with ⟨c, out, err, exc, binds⟩
    cases c with
    | none => cases hce
    | some e =>
      cases hce
      constructor
      · simp only [execute_code]
        rw [if_neg (by rw [hcls]; decide)]
        unfold excText
        rw [if_pos hcls]
      · show (("Syntax Error: ").toList).isPrefixOf
          (("Syntax Error: ").toList ++ ce.msg ++ '\n' :: ce.traceback) = true
        rw [List.append_assoc]
        simp only [List.isPrefixOf_iff_prefix]
        exact List.prefix_append _ _
  · intro ce hce hcls
    rcases s with ⟨c, out, err, exc, binds⟩
    cases c with
    | none => cases hce
    | some e =>
      cases hce
      simp only [execute_code]
      rw [if_neg (by rw [hcls]; decide)]
      unfold excText
      rw [if_neg (by rw [hcls]; decide)]
  · intro e hce hexc hcls
    rcases s with ⟨c, out, err, exc, binds⟩
    cases c with
    | some e2 => cases hce
    | none =>
      cases exc with
      | none => cases hexc
      | some e2 =>
        cases hexc
        refine ⟨?_, ?_, ?_⟩
        · simp only [execute_code]
          rw [if_neg (by rw [hcls]; decide)]
          unfold excText
          rw [if_neg (by rw [hcls]; decide)]
        · show (("Error: ").toList).isPrefixOf
            (("Error: ").toList ++ e.msg ++ '\n' :: e.traceback) = true
          rw [List.append_assoc]
          simp only [List.isPrefixOf_iff_prefix]
          exact List.prefix_append _ _
        · show (("Syntax Error: ").toList).isPrefixOf
            (("Error: ").toList ++ e.msg ++ '\n' :: e.traceback) = false
          rfl
  · intro e hce hexc hcls
    rcases s with ⟨c, out, err, exc, binds⟩
    cases c with
    | some e2 => cases hce
    | none =>
      cases exc with
      | none => cases hexc
      | some e2 =>
        cases hexc
        simp only [execute_code]
        rw [if_pos hcls]

theorem error_labels_identify_phase_witness :
    execute_code valueErrorScript PyVal.none 30 =
      Except.ok ⟨false, [],
        some (runtimeErrorText ⟨PyExcClass.exception, ("x").toList, valueErrorTb⟩),
        PyVal.none, []⟩ ∧
    containsTok (runtimeErrorText ⟨PyExcClass.exception, ("x").toList, valueErrorTb⟩)
      (("ValueError").toList) = true ∧
    (("Error: ").toList).isPrefixOf
      (runtimeErrorText ⟨PyExcClass.exception, ("x").toList, valueErrorTb⟩) = true ∧
    (("Syntax Error: ").toList).isPrefixOf
      (runtimeErrorText ⟨PyExcClass.exception, ("x").toList, valueErrorTb⟩) = false := by
  have h := (error_labels_identify_phase valueErrorScript PyVal.none 30).2.2.1
    ⟨PyExcClass.exception, ("x").toList, valueErrorTb⟩ rfl rfl rfl
  exact ⟨h.1, by decide, h.2.1, h.2.2⟩

/-! ## Theorems about the parameter engine -/

/-- C8: on the one-line script `learning_rate = 0.01`, detection yields
exactly one Parameter: `learning_rate`, float kind, value `0.01`, range
`[0.0001, 1.0]`, step `0.001` (the trailing conjuncts spell the `mkRat`
constants out as the claimed decimal fractions). -/
theorem detect_learning_rate_scenario :
    detect_parameters (("learning_rate = 0.01").toList) =
      [{ name := ("learning_rate").toList, value := mkRat 1 100, line_number := 1,
         original_text := ("learning_rate = 0.01").toList,
         param_type := ParamKind.float,
         min_value := mkRat 1 10000, max_value := 1, step := mkRat 1 1000 }] ∧
    (mkRat 1 100 : ℚ) = 1/100 ∧ (mkRat 1 10000 : ℚ) = 1/10000 ∧
    (mkRat 1 1000 : ℚ) = 1/1000 := by
  refine ⟨by decide, ?_, ?_, ?_⟩ <;> norm_num [Rat.mkRat_eq_div]

/-- C2 counterexample: the invariant `min ≤ value ≤ max` fails on detected
parameters.  On `learning_rate = 5` the semantic rate override clamps the
range to `[0.0001, 1.0]` while the detected value is `5 > 1`. -/
theorem detect_range_invariant_counterexample :
    ¬ (∀ p ∈ detect_parameters (("learning_rate = 5").toList),
        p.min_value ≤ p.value ∧ p.value ≤ p.max_value ∧ 0 < p.step) := by
  decide

theorem apply_parameter_hints_keeps_name_value (p : Parameter) :
    (apply_parameter_hints p).name = p.name ∧
    (apply_parameter_hints p).value = p.value := by
  unfold apply_parameter_hints
  constructor <;> (dsimp only []; split <;> try rfl) <;> (split <;> try rfl) <;>
    (split <;> try rfl) <;> (split <;> try rfl) <;> (split <;> try rfl) <;>
    (split <;> try rfl) <;> (split <;> try rfl) <;> (split <;> rfl)

theorem apply_parameter_hints_of_not_applies (p : Parameter)
    (h : hintApplies p.name p.value = false) : apply_parameter_hints p = p := by
  unfold hintApplies at h
  simp only [Bool.or_eq_false_iff] at h
  obtain ⟨⟨⟨⟨⟨⟨⟨h1, h2⟩, h3⟩, h4⟩, h5⟩, h6⟩, h7⟩, h8⟩ := h
  unfold apply_parameter_hints
  rw [if_neg (by rw [h1]; decide), if_neg (by rw [h2]; decide),
      if_neg (by rw [h3]; decide), if_neg (by rw [h4]; decide),
      if_neg (by rw [h5.1, h5.2]; decide), if_neg (by rw [h6]; decide),
      if_neg (by rw [h7.1.1, h7.1.2, h7.2]; decide),
      if_neg (by rw [h8]; decide)]

theorem parseIntStr_nonneg (ds : List Char) : 0 ≤ parseIntStr ds := by
  unfold parseIntStr; positivity

theorem parseFloatStr_nonneg (ds : List Char) : 0 ≤ parseFloatStr ds := by
  unfold parseFloatStr
  dsimp only []
  split
  · rw [Rat.mkRat_eq_div]; positivity
  · positivity

theorem qabs_of_nonneg (q : ℚ) (h : 0 ≤ q) : qabs q = q :=
  if_neg (not_lt.mpr h)

theorem qscale_eq (v : ℚ) (k : ℤ) : qscale v k = v * k := by
  rw [qscale, Rat.mkRat_eq_div]
  push_cast
  conv_rhs => rw [← Rat.num_div_den v]
  rw [div_mul_eq_mul_div]

theorem hint_step_pos (p : Parameter) (h : 0 < p.step) :
    0 < (apply_parameter_hints p).step := by
  unfold apply_parameter_hints
  dsimp only []
  repeat' split
  all_goals first
    | exact h
    | norm_num [Rat.mkRat_eq_div]

theorem default_range_invariant (ty : ParamKind) (v : ℚ) (hv : 0 ≤ v) :
    defaultMinValue ty v ≤ v ∧ v ≤ defaultMaxValue ty v ∧ 0 < defaultStep ty v := by
  have htr : pyTrunc v = ⌊v⌋ := if_pos hv
  cases ty with
  | int =>
    refine ⟨?_, ?_, by simp only [defaultStep]; norm_num⟩
    · simp only [defaultMinValue]
      rw [htr]
      push_cast
      have hf : ((⌊v⌋ : ℚ)) ≤ v := Int.floor_le v
      have h2 : ((⌊v⌋ : ℚ)) - 100 ≤ v := by linarith
      exact max_le hv h2
    · simp only [defaultMaxValue]
      rw [htr]
      push_cast
      have hf : v < (⌊v⌋ : ℚ) + 1 := Int.lt_floor_add_one v
      have h2 : v ≤ ((⌊v⌋ : ℚ)) + 100 := by linarith
      exact le_max_of_le_left h2
  | float =>
    refine ⟨hv, ?_, ?_⟩
    · simp only [defaultMaxValue]
      rw [qabs_of_nonneg v hv, qscale_eq, qscale_eq]
      push_cast
      split
      · linarith
      · split
        · nlinarith
        · nlinarith
    · simp only [defaultStep]
      repeat' split
      all_goals norm_num [Rat.mkRat_eq_div]

/-- C2 amended: for every detected parameter, `step > 0` holds
unconditionally; the range invariant `min ≤ value ≤ max` holds whenever no
semantic name-based override fires (a semantic override installs a fixed
range that can exclude the detected value, as the counterexample shows). -/
theorem detect_parameters_range_invariant (code : List Char) :
    ∀ p ∈ detect_parameters code,
      0 < p.step ∧
      (hintApplies p.name p.value = false →
        p.min_value ≤ p.value ∧ p.value ≤ p.max_value) := by
  have key : ∀ hit ln, 0 < (mkParamOfHit hit ln).step ∧
      (hintApplies (mkParamOfHit hit ln).name (mkParamOfHit hit ln).value = false →
        (mkParamOfHit hit ln).min_value ≤ (mkParamOfHit hit ln).value ∧
        (mkParamOfHit hit ln).value ≤ (mkParamOfHit hit ln).max_value) := by
    intro hit ln
    unfold mkParamOfHit
    set isFl := hit.valueStr.contains '.' with hisfl
    set ty := if isFl then ParamKind.float else ParamKind.int with hty
    set v := if isFl then parseFloatStr hit.valueStr else parseIntStr hit.valueStr with hv
    have hv0 : 0 ≤ v := by
      rw [hv]; split
      · exact parseFloatStr_nonneg _
      · exact parseIntStr_nonneg _
    set p0 := mkDefaultParameter hit.name v ln
      (hit.name ++ (" = ").toList ++ hit.valueStr) ty with hp0
    have hdef := default_range_invariant ty v hv0
    constructor
    · exact hint_step_pos p0 hdef.2.2
    · intro hna
      have hkv := apply_parameter_hints_keeps_name_value p0
      rw [hkv.1, hkv.2] at hna
      have : p0.name = hit.name ∧ p0.value = v := ⟨rfl, rfl⟩
      rw [this.1, this.2] at hna
      rw [apply_parameter_hints_of_not_applies p0 (by exact hna)]
      exact ⟨hdef.1, hdef.2.1⟩
  -- every member of the detection result is `mkParamOfHit hit ln` for some hit
  suffices h : ∀ ls ln seen acc,
      (∀ p ∈ acc, 0 < p.step ∧ (hintApplies p.name p.value = false →
        p.min_value ≤ p.value ∧ p.value ≤ p.max_value)) →
      ∀ p ∈ detectGo ls ln seen acc,
        0 < p.step ∧ (hintApplies p.name p.value = false →
          p.min_value ≤ p.value ∧ p.value ≤ p.max_value) by
    intro p hp
    exact h _ _ _ _ (by intro q hq; cases hq) p hp
  intro ls
  induction ls with
  | nil => intro ln seen acc hacc p hp; exact hacc p hp
  | cons l rest ih =>
    intro ln seen acc hacc p hp
    unfold detectGo at hp
    dsimp only [] at hp
    split at hp
    · exact ih _ _ _ hacc p hp
    · split at hp
      · refine ih _ _ _ ?_ p hp
        intro q hq
        rcases List.mem_append.mp hq with hq | hq
        · exact hacc q hq
        · rcases List.mem_singleton.mp hq with rfl
          exact key _ _
      · exact ih _ _ _ hacc p hp

theorem detect_parameters_range_invariant_witness :
    0 < maxIterParam.step ∧
    maxIterParam.min_value ≤ maxIterParam.value ∧
    maxIterParam.value ≤ maxIterParam.max_value := by
  have h := detect_parameters_range_invariant (("max_iter = 500").toList)
    maxIterParam (by decide)
  exact ⟨h.1, h.2 (by decide)⟩

/-! ## The rewrite engine: supporting lemmas

### Character classes under lower-casing -/

theorem pyIsSpace_toLowerChar (c : Char) : pyIsSpace (toLowerChar c) = pyIsSpace c := by
  unfold toLowerChar
  split <;> first | rfl | decide

theorem toLowerChar_eq_eqsign (c : Char) : toLowerChar c = '=' ↔ c = '=' := by
  unfold toLowerChar
  split <;> first | rfl | (subst c; decide) | simp_all

theorem pyIsSpace_cases (c : Char) (h : pyIsSpace c = true) :
    c = ' ' ∨ c = '\t' ∨ c = '\n' ∨ c = '\r' ∨ c = '\x0b' ∨ c = '\x0c' := by
  unfold pyIsSpace at h
  simp only [Bool.or_eq_true, beq_iff_eq] at h
  tauto

theorem isIdentChar_not_space (c : Char) (h : isIdentChar c = true) :
    pyIsSpace c = false := by
  by_contra hc
  rw [Bool.not_eq_false] at hc
  rcases pyIsSpace_cases c hc with rfl | rfl | rfl | rfl | rfl | rfl <;>
    exact absurd h (by decide)

theorem isIdentChar_ne_eqsign (c : Char) (h : isIdentChar c = true) : c ≠ '=' := by
  rintro rfl
  exact absurd h (by decide)

theorem isDigitChar_not_space (c : Char) (h : isDigitChar c = true) :
    pyIsSpace c = false := by
  by_contra hc
  rw [Bool.not_eq_false] at hc
  rcases pyIsSpace_cases c hc with rfl | rfl | rfl | rfl | rfl | rfl <;>
    exact absurd h (by decide)

theorem goodName_lower (n : List Char) (h : goodName n) (c : Char)
    (hc : c ∈ lowerStr n) : pyIsSpace c = false ∧ c ≠ '=' := by
  rcases List.mem_map.mp hc with ⟨c0, hc0, rfl⟩
  obtain ⟨hs, he⟩ := h.2 c0 hc0
  refine ⟨by rw [pyIsSpace_toLowerChar, hs], ?_⟩
  intro heq
  exact he ((toLowerChar_eq_eqsign c0).mp heq)

/-! ### List scanning helpers -/

theorem drop_takeWhile_len (p : Char → Bool) (l : List Char) :
    l.drop (l.takeWhile p).length = l.dropWhile p := by
  nth_rewrite 2 [← List.takeWhile_append_dropWhile (p := p) (l := l)]
  exact List.drop_left _ _

theorem take_takeWhile_len (p : Char → Bool) (l : List Char) :
    l.take (l.takeWhile p).length = l.takeWhile p := by
  nth_rewrite 2 [← List.takeWhile_append_dropWhile (p := p) (l := l)]
  exact List.take_left _ _

theorem takeWhile_all_append (p : Char → Bool) (a b : List Char)
    (h : ∀ c ∈ a, p c = true) :
    (a ++ b).takeWhile p = a ++ b.takeWhile p := by
  induction a with
  | nil => rfl
  | cons c t ih =>
    rw [List.cons_append, List.takeWhile_cons_of_pos (h c (List.mem_cons_self c t)),
        ih (fun x hx => h x (List.mem_cons_of_mem c hx)), List.cons_append]

theorem dropWhile_all_append (p : Char → Bool) (a b : List Char)
    (h : ∀ c ∈ a, p c = true) :
    (a ++ b).dropWhile p = b.dropWhile p := by
  induction a with
  | nil => rfl
  | cons c t ih =>
    rw [List.cons_append, List.dropWhile_cons_of_pos (h c (List.mem_cons_self c t)),
        ih (fun x hx => h x (List.mem_cons_of_mem c hx))]

theorem drop_head_of_lt_takeWhile (p : Char → Bool) (l : List Char) (k : ℕ)
    (hk : k < (l.takeWhile p).length) :
    ∃ c t, l.drop k = c :: t ∧ p c = true := by
  conv in l.drop k => rw [← List.takeWhile_append_dropWhile (p := p) (l := l)]
  rw [List.drop_append_eq_append_drop]
  have hne : (l.takeWhile p).drop k ≠ [] := by
    intro hnil
    have := List.length_eq_zero.mpr hnil
    rw [List.length_drop] at this
    omega
  rcases List.exists_cons_of_ne_nil hne with ⟨c, t, hct⟩
  refine ⟨c, t ++ (l.dropWhile p).drop (k - (l.takeWhile p).length), by rw [hct]; simp, ?_⟩
  have hmem : c ∈ l.takeWhile p := List.drop_subset _ _ (hct ▸ List.mem_cons_self c t)
  exact List.mem_takeWhile_imp hmem

/-! ### Value-group facts -/

theorem matchFloatValue_isSome_of_digit (c : Char) (t : List Char)
    (h : isDigitChar c = true) : (matchFloatValue (c :: t)).isSome = true := by
  unfold matchFloatValue
  dsimp only []
  rw [List.takeWhile_cons_of_pos h, List.dropWhile_cons_of_pos h]
  split
  · split <;> simp
  · simp

theorem matchIntValue_imp_float (cs : List Char) (d : List Char)
    (h : matchIntValue cs = some d) : (matchFloatValue cs).isSome = true := by
  cases cs with
  | nil => simp [matchIntValue] at h
  | cons c t =>
    by_cases hc : isDigitChar c = true
    · exact matchFloatValue_isSome_of_digit c t hc
    · simp only [matchIntValue] at h
      rw [List.takeWhile_cons_of_neg (by simpa using hc)] at h
      simp at h

theorem matchEqValue_some_dropWhile (f : Bool) (cs v : List Char)
    (h : matchEqValue f cs = some v) :
    ∃ rest, cs.dropWhile pyIsSpace = '=' :: rest := by
  unfold matchEqValue at h
  split at h
  · exact ⟨_, by assumption⟩
  · exact absurd h (by simp)

theorem matchEqValue_some_head (f : Bool) (cs v : List Char)
    (h : matchEqValue f cs = some v) :
    ∃ c t, cs = c :: t ∧ (pyIsSpace c = true ∨ c = '=') := by
  obtain ⟨rest, hd⟩ := matchEqValue_some_dropWhile f cs v h
  cases hcs : cs with
  | nil =>
    rw [hcs] at hd
    simp [List.dropWhile] at hd
  | cons c t =>
    refine ⟨c, t, rfl, ?_⟩
    by_cases hsp : pyIsSpace c = true
    · exact Or.inl hsp
    · right
      rw [hcs] at hd
      rw [List.dropWhile_cons_of_neg (by simpa using hsp)] at hd
      exact (List.cons_eq_cons.mp hd).1

theorem matchEqValue_canon (fmt : List Char) (c : Char) (t : List Char)
    (hfmt : fmt = c :: t) (hc : isDigitChar c = true) :
    (matchEqValue true ((" = ").toList ++ fmt)).isSome = true := by
  unfold matchEqValue
  have h1 : ((" = ").toList ++ fmt).dropWhile pyIsSpace = '=' :: (' ' :: fmt) := by
    show (' ' :: '=' :: ' ' :: fmt).dropWhile pyIsSpace = _
    rw [List.dropWhile_cons_of_pos (by decide), List.dropWhile_cons_of_neg (by decide)]
  rw [h1]
  show (matchFloatValue ((' ' :: fmt).dropWhile pyIsSpace)).isSome = true
  rw [List.dropWhile_cons_of_pos (by decide), hfmt,
      List.dropWhile_cons_of_neg (by simp [isDigitChar_not_space c hc])]
  exact matchFloatValue_isSome_of_digit c t hc

/-! ### Decimal rendering facts -/

theorem isDigitChar_digitChar (k : ℕ) : isDigitChar (digitChar k) = true := by
  unfold digitChar
  split <;> decide

theorem natDigitsGo_ne_nil (fuel n : ℕ) : natDigitsGo (fuel + 1) n ≠ [] := by
  unfold natDigitsGo
  split
  · simp
  · simp

theorem natDigits_ne_nil (n : ℕ) : natDigits n ≠ [] := natDigitsGo_ne_nil n n

theorem natDigitsGo_all_digit (fuel : ℕ) :
    ∀ n, ∀ c ∈ natDigitsGo fuel n, isDigitChar c = true := by
  induction fuel with
  | zero => intro n c hc; cases hc
  | succ fuel ih =>
    intro n c hc
    unfold natDigitsGo at hc
    split at hc
    · rcases List.mem_singleton.mp hc with rfl
      exact isDigitChar_digitChar n
    · rcases List.mem_append.mp hc with hc | hc
      · exact ih _ c hc
      · rcases List.mem_singleton.mp hc with rfl
        exact isDigitChar_digitChar _

theorem natDigits_all_digit (n : ℕ) : ∀ c ∈ natDigits n, isDigitChar c = true :=
  natDigitsGo_all_digit (n + 1) n

theorem natDigits_head_digit (n : ℕ) :
    ∃ c t, natDigits n = c :: t ∧ isDigitChar c = true := by
  rcases List.exists_cons_of_ne_nil (natDigits_ne_nil n) with ⟨c, t, hct⟩
  exact ⟨c, t, hct, natDigits_all_digit n c (hct ▸ List.mem_cons_self c t)⟩

theorem stripTrailingZeros_subset (ds : List Char) (c : Char)
    (hc : c ∈ stripTrailingZeros ds) : c ∈ ds := by
  unfold stripTrailingZeros at hc
  rw [List.mem_reverse] at hc
  have := List.dropWhile_sublist (l := ds.reverse) (p := fun c => c == '0')
  exact List.mem_reverse.mp (this.mem hc)

theorem format6Abs_head_digit (q : ℚ) :
    ∃ c t, format6Abs q = c :: t ∧ isDigitChar c = true := by
  unfold format6Abs
  dsimp only []
  split
  · exact natDigits_head_digit _
  · rcases natDigits_head_digit
      (((2 * q.num * 1000000 + (q.den : ℤ)).fdiv (2 * (q.den : ℤ))).toNat / 1000000) with
      ⟨c, t, hct, hc⟩
    exact ⟨c, t ++ '.' :: _, by rw [hct]; rfl, hc⟩

theorem format6Abs_chars (q : ℚ) (c : Char) (hc : c ∈ format6Abs q) :
    isDigitChar c = true ∨ c = '.' := by
  unfold format6Abs at hc
  dsimp only [] at hc
  split at hc
  · exact Or.inl (natDigits_all_digit _ c hc)
  · rcases List.mem_append.mp hc with hc | hc
    · exact Or.inl (natDigits_all_digit _ c hc)
    · rcases List.mem_cons.mp hc with rfl | hc
      · exact Or.inr rfl
      · left
        have := stripTrailingZeros_subset _ c hc
        rcases List.mem_append.mp this with hm | hm
        · rcases List.eq_of_mem_replicate hm with rfl
          decide
        · exact natDigits_all_digit _ c hm

theorem formatPyNum_head_digit (v : PyNum) (hv : 0 ≤ v.toRat) :
    ∃ c t, formatPyNum v = c :: t ∧ isDigitChar c = true := by
  cases v with
  | int n =>
    have hv' : (0 : ℚ) ≤ (n : ℚ) := hv
    have hn : ¬ n < 0 := not_lt.mpr (by exact_mod_cast hv')
    show ∃ c t, intDigits n = c :: t ∧ _
    rw [intDigits, if_neg hn]
    exact natDigits_head_digit _
  | float q =>
    have hq : 0 ≤ q := hv
    show ∃ c t, (if q = ((pyTrunc q : ℤ) : ℚ) then intDigits (pyTrunc q) else formatFloat q) = c :: t ∧ _
    split
    · have htr : 0 ≤ pyTrunc q := by
        rw [pyTrunc, if_pos hq]
        exact Int.floor_nonneg.mpr hq
      rw [intDigits, if_neg (not_lt.mpr htr)]
      exact natDigits_head_digit _
    · rw [formatFloat, if_neg (not_lt.mpr hq)]
      exact format6Abs_head_digit q

theorem formatPyNum_chars (v : PyNum) (hv : 0 ≤ v.toRat) (c : Char)
    (hc : c ∈ formatPyNum v) : isDigitChar c = true ∨ c = '.' := by
  cases v with
  | int n =>
    have hv' : (0 : ℚ) ≤ (n : ℚ) := hv
    have hn : ¬ n < 0 := not_lt.mpr (by exact_mod_cast hv')
    rw [show formatPyNum (PyNum.int n) = intDigits n from rfl, intDigits, if_neg hn] at hc
    exact Or.inl (natDigits_all_digit _ c hc)
  | float q =>
    have hq : 0 ≤ q := hv
    rw [show formatPyNum (PyNum.float q) =
      (if q = ((pyTrunc q : ℤ) : ℚ) then intDigits (pyTrunc q) else formatFloat q) from rfl] at hc
    split at hc
    · have htr : 0 ≤ pyTrunc q := by
        rw [pyTrunc, if_pos hq]
        exact Int.floor_nonneg.mpr hq
      rw [intDigits, if_neg (not_lt.mpr htr)] at hc
      exact Or.inl (natDigits_all_digit _ c hc)
    · rw [formatFloat, if_neg (not_lt.mpr hq)] at hc
      exact format6Abs_chars q c hc

/-! ### Characterizing the rewrite matcher for well-behaved names

For a name with no leading whitespace, the greedy `(\s*)` group of the
rewrite pattern can only succeed when it covers the whole leading space run
of the line: at any shorter split the literal name would have to start with
a space character. -/

theorem caseInsensStarts_false_of_space (n : List Char) (hn : goodName n)
    (c : Char) (t : List Char) (hc : pyIsSpace c = true) :
    caseInsensStarts n (c :: t) = false := by
  obtain ⟨hne, hall⟩ := hn
  cases n with
  | nil => exact absurd rfl hne
  | cons n0 n' =>
    show ((toLowerChar n0 :: lowerStr n').isPrefixOf (toLowerChar c :: lowerStr t)) = false
    rw [List.isPrefixOf_cons₂]
    have h1 : pyIsSpace (toLowerChar n0) = false := by
      rw [pyIsSpace_toLowerChar]; exact (hall n0 (List.mem_cons_self _ _)).1
    have h2 : pyIsSpace (toLowerChar c) = true := by rw [pyIsSpace_toLowerChar]; exact hc
    have h3 : (toLowerChar n0 == toLowerChar c) = false := by
      rw [beq_eq_false_iff_ne]
      intro heq; rw [heq, h2] at h1; cases h1
    rw [h3, Bool.false_and]

theorem rewriteTryAt_lt_false (n l : List Char) (hn : goodName n) (k : ℕ)
    (hk : k < (l.takeWhile pyIsSpace).length) : rewriteTryAt n l k = false := by
  obtain ⟨c, t, hct, hc⟩ := drop_head_of_lt_takeWhile pyIsSpace l k hk
  unfold rewriteTryAt
  rw [hct, caseInsensStarts_false_of_space n hn c t hc, Bool.false_and]

theorem rewriteFindIndent_lt_none (n l : List Char) (hn : goodName n) :
    ∀ k, k < (l.takeWhile pyIsSpace).length → rewriteFindIndent n l k = none := by
  intro k
  induction k with
  | zero =>
    intro hk
    unfold rewriteFindIndent
    rw [rewriteTryAt_lt_false n l hn 0 hk]
    rfl
  | succ k ih =>
    intro hk
    unfold rewriteFindIndent
    rw [rewriteTryAt_lt_false n l hn (k + 1) hk]
    exact ih (Nat.lt_of_succ_lt hk)

/-- The rewrite matcher, characterized: for a well-behaved name it matches
exactly at the full leading space run, which it returns as the indent. -/
theorem lineRewriteIndent_char (n l : List Char) (hn : goodName n) :
    lineRewriteIndent n l =
      if rewriteTryAt n l (l.takeWhile pyIsSpace).length
      then some (l.takeWhile pyIsSpace) else none := by
  unfold lineRewriteIndent
  cases hK : (l.takeWhile pyIsSpace).length with
  | zero =>
    unfold rewriteFindIndent
    have h0 : l.take 0 = l.takeWhile pyIsSpace := by
      rw [← hK, take_takeWhile_len]
    rw [h0]
  | succ K =>
    unfold rewriteFindIndent
    have hT : l.take (K + 1) = l.takeWhile pyIsSpace := by
      rw [← hK, take_takeWhile_len]
    rw [hT]
    by_cases htry : rewriteTryAt n l (K + 1) = true
    · rw [htry]; rfl
    · rw [Bool.not_eq_true] at htry
      rw [htry]
      show rewriteFindIndent n l K = none
      exact rewriteFindIndent_lt_none n l hn K (by omega)

theorem rwMatch_eq_tryTop (n l : List Char) (hn : goodName n) :
    rwMatch n l = rewriteTryAt n l (l.takeWhile pyIsSpace).length := by
  unfold rwMatch
  rw [lineRewriteIndent_char n l hn]
  by_cases h : rewriteTryAt n l (l.takeWhile pyIsSpace).length = true
  · rw [h, if_pos rfl]; rfl
  · rw [Bool.not_eq_true] at h
    rw [h]
    simp

theorem rewriteTryAt_top (n l : List Char) :
    rewriteTryAt n l (l.takeWhile pyIsSpace).length =
      (caseInsensStarts n (l.dropWhile pyIsSpace) &&
       (matchEqValue true ((l.dropWhile pyIsSpace).drop n.length)).isSome) := by
  unfold rewriteTryAt
  rw [drop_takeWhile_len]

theorem lineRewriteIndent_some_indent (n l ind : List Char) (hn : goodName n)
    (h : lineRewriteIndent n l = some ind) : ind = l.takeWhile pyIsSpace := by
  rw [lineRewriteIndent_char n l hn] at h
  split at h
  · exact (Option.some.injEq _ _ ▸ h).symm
  · cases h

/-- Helper: a well-behaved name cannot match at a strictly shorter position
than another successful match — the character of the line at the shorter
name's end is a space or `'='` (start of the `\s*=` tail), while inside the
longer matched name every character is neither. -/
theorem rwmatch_mismatch_aux (nS nL r : List Char)
    (hlt : nS.length < nL.length) (hL : lowerStr nL <+: lowerStr r)
    (hg : goodName nL)
    (hv : (matchEqValue true (r.drop nS.length)).isSome = true) : False := by
  obtain ⟨v, hvv⟩ := Option.isSome_iff_exists.mp hv
  obtain ⟨c, t, hct, hsp⟩ := matchEqValue_some_head true _ v hvv
  have hm'lt : nS.length < r.length := by
    have hne : r.drop nS.length ≠ [] := by rw [hct]; simp
    exact List.length_lt_of_drop_ne_nil hne
  have hcr : r.get ⟨nS.length, hm'lt⟩ = c := by
    have hdec := List.drop_eq_getElem_cons (l := r) (n := nS.length) hm'lt
    rw [hct] at hdec
    exact (List.cons_eq_cons.mp hdec.symm).1
  have hlenL : (lowerStr nL).length = nL.length := by simp [lowerStr]
  have htake : lowerStr nL = (lowerStr r).take nL.length := by
    have hpt := List.prefix_iff_eq_take.mp hL
    rwa [hlenL] at hpt
  have hcr? : r[nS.length]? = some c :=
    List.getElem?_eq_some_iff.mpr ⟨hm'lt, hcr⟩
  have hlr : (lowerStr r)[nS.length]? = some (toLowerChar c) := by
    show (List.map toLowerChar r)[nS.length]? = _
    rw [List.getElem?_map, hcr?]
    rfl
  have hgetL : (lowerStr nL)[nS.length]? = some (toLowerChar c) := by
    rw [htake, List.getElem?_take_of_lt hlt]
    exact hlr
  have hmem : toLowerChar c ∈ lowerStr nL := List.getElem?_mem hgetL
  obtain ⟨hns, hne⟩ := goodName_lower nL hg (toLowerChar c) hmem
  rcases hsp with hsp | rfl
  · rw [pyIsSpace_toLowerChar, hsp] at hns; cases hns
  · exact hne (by decide)

/-- On a line that some well-behaved name matches, exactly the
case-insensitive variants of that name match. -/
theorem rwMatch_equiv (n n' l : List Char) (hn : goodName n) (hn' : goodName n')
    (hm : rwMatch n l = true) :
    rwMatch n' l = (lowerStr n' == lowerStr n) := by
  rw [rwMatch_eq_tryTop n l hn, rewriteTryAt_top] at hm
  rw [rwMatch_eq_tryTop n' l hn', rewriteTryAt_top]
  obtain ⟨hpre, hval⟩ := Bool.and_eq_true_iff.mp hm
  have hpre' : lowerStr n <+: lowerStr (l.dropWhile pyIsSpace) := by
    unfold caseInsensStarts at hpre
    exact List.isPrefixOf_iff_prefix.mp hpre
  by_cases heq : lowerStr n' = lowerStr n
  · have hlen : n'.length = n.length := by
      have h1 : (lowerStr n').length = (lowerStr n).length := by rw [heq]
      simpa [lowerStr] using h1
    rw [beq_iff_eq.mpr heq, Bool.and_eq_true]
    constructor
    · unfold caseInsensStarts
      rw [List.isPrefixOf_iff_prefix, heq]
      exact hpre'
    · rw [hlen]; exact hval
  · rw [beq_eq_false_iff_ne.mpr heq]
    by_contra hcon
    rw [Bool.not_eq_false, Bool.and_eq_true] at hcon
    obtain ⟨hpre2, hval2⟩ := hcon
    have hpre2' : lowerStr n' <+: lowerStr (l.dropWhile pyIsSpace) := by
      unfold caseInsensStarts at hpre2
      exact List.isPrefixOf_iff_prefix.mp hpre2
    rcases Nat.lt_trichotomy n'.length n.length with hlt | heqlen | hgt
    · exact rwmatch_mismatch_aux n' n _ hlt hpre' hn hval2
    · refine heq ?_
      have h1 := List.prefix_iff_eq_take.mp hpre'
      have h2 := List.prefix_iff_eq_take.mp hpre2'
      have hl1 : (lowerStr n).length = n.length := by simp [lowerStr]
      have hl2 : (lowerStr n').length = n'.length := by simp [lowerStr]
      rw [h1, h2, hl1, hl2, heqlen]
    · exact rwmatch_mismatch_aux n n' _ hgt hpre2' hn' hval

/-! ### The replacement line -/

theorem canonLine_takeWhile (ind n : List Char) (v : PyNum)
    (hind : ∀ c ∈ ind, pyIsSpace c = true) (hn : goodName n) :
    (canonLine ind n v).takeWhile pyIsSpace = ind := by
  cases hcn : n with
  | nil => exact absurd hcn hn.1
  | cons n0 n' =>
    unfold canonLine
    rw [takeWhile_all_append pyIsSpace ind _ hind, List.cons_append,
        List.takeWhile_cons_of_neg (by simp [(hn.2 n0 (hcn ▸ List.mem_cons_self _ _)).1]),
        List.append_nil]

theorem canonLine_dropWhile (ind n : List Char) (v : PyNum)
    (hind : ∀ c ∈ ind, pyIsSpace c = true) (hn : goodName n) :
    (canonLine ind n v).dropWhile pyIsSpace = n ++ ((" = ").toList ++ formatPyNum v) := by
  cases hcn : n with
  | nil => exact absurd hcn hn.1
  | cons n0 n' =>
    unfold canonLine
    rw [dropWhile_all_append pyIsSpace ind _ hind, List.cons_append,
        List.dropWhile_cons_of_neg (by simp [(hn.2 n0 (hcn ▸ List.mem_cons_self _ _)).1]),
        ← List.cons_append]

theorem rwMatch_canonLine_self (ind n : List Char) (v : PyNum)
    (hind : ∀ c ∈ ind, pyIsSpace c = true) (hn : goodName n) (hv : 0 ≤ v.toRat) :
    rwMatch n (canonLine ind n v) = true := by
  rw [rwMatch_eq_tryTop _ _ hn, rewriteTryAt_top, canonLine_dropWhile ind n v hind hn,
      Bool.and_eq_true]
  constructor
  · unfold caseInsensStarts
    rw [List.isPrefixOf_iff_prefix]
    show lowerStr n <+: lowerStr (n ++ ((" = ").toList ++ formatPyNum v))
    unfold lowerStr
    rw [List.map_append]
    exact List.prefix_append _ _
  · rw [List.drop_left]
    obtain ⟨c, t, hct, hc⟩ := formatPyNum_head_digit v hv
    exact matchEqValue_canon (formatPyNum v) c t hct hc

theorem rwMatch_canonLine (ind n n' : List Char) (v : PyNum)
    (hind : ∀ c ∈ ind, pyIsSpace c = true) (hn : goodName n) (hn' : goodName n')
    (hv : 0 ≤ v.toRat) :
    rwMatch n' (canonLine ind n v) = (lowerStr n' == lowerStr n) :=
  rwMatch_equiv n n' _ hn hn' (rwMatch_canonLine_self ind n v hind hn hv)

theorem canonLine_no_newline (ind n : List Char) (v : PyNum)
    (hind : '\n' ∉ ind) (hn : goodName n) (hv : 0 ≤ v.toRat) :
    '\n' ∉ canonLine ind n v := by
  intro hmem
  unfold canonLine at hmem
  rcases List.mem_append.mp hmem with h | h
  · exact hind h
  · rcases List.mem_append.mp h with h | h
    · exact absurd (hn.2 '\n' h).1 (by decide)
    · rcases List.mem_append.mp h with h | h
      · simp at h
      · rcases formatPyNum_chars v hv '\n' h with h | h
        · exact absurd h (by decide)
        · cases h

/-! ### What one update entry does to the list of lines -/

theorem applyParamUpdate_length (n : List Char) (v : PyNum) (L : List (List Char)) :
    (applyParamUpdate n v L).length = L.length := by
  induction L with
  | nil => rfl
  | cons l ls ih =>
    unfold applyParamUpdate
    cases lineRewriteIndent n l with
    | some ind => rfl
    | none => simpa using ih

theorem firstMatchIdx_some_lt (n : List Char) (L : List (List Char)) (j : ℕ)
    (h : firstMatchIdx n L = some j) : j < L.length := by
  induction L generalizing j with
  | nil => cases h
  | cons l ls ih =>
    unfold firstMatchIdx at h
    split at h
    · cases h; simp
    · rcases Option.map_eq_some'.mp h with ⟨j', hj', rfl⟩
      have := ih j' hj'
      simp
      omega

/-- The frame property of one update entry, with no side conditions: every
line other than the first match is returned unchanged. -/
theorem applyParamUpdate_get?_of_ne (n : List Char) (v : PyNum) (L : List (List Char))
    (j : ℕ) (h : firstMatchIdx n L ≠ some j) :
    (applyParamUpdate n v L)[j]? = L[j]? := by
  induction L generalizing j with
  | nil => rfl
  | cons l ls ih =>
    unfold firstMatchIdx at h
    unfold applyParamUpdate
    cases hm : lineRewriteIndent n l with
    | some ind =>
      have hmt : rwMatch n l = true := by unfold rwMatch; rw [hm]; rfl
      rw [hmt] at h
      simp only [if_pos rfl] at h
      cases j with
      | zero => exact absurd rfl h
      | succ j' => simp
    | none =>
      have hmf : rwMatch n l = false := by unfold rwMatch; rw [hm]; rfl
      rw [hmf] at h
      simp only [Bool.false_eq_true, if_false] at h
      cases j with
      | zero => simp
      | succ j' =>
        have hne : firstMatchIdx n ls ≠ some j' := by
          intro hc
          exact h (by rw [hc]; rfl)
        simpa using ih j' hne

/-- Full pointwise characterization of one update entry for a well-behaved
name: the first matching line is replaced by the canonical replacement line
built from its own leading whitespace; everything else is unchanged. -/
theorem applyParamUpdate_get? (n : List Char) (v : PyNum) (hn : goodName n)
    (L : List (List Char)) (j : ℕ) :
    (applyParamUpdate n v L)[j]? =
      if firstMatchIdx n L = some j
      then (L[j]?).map (fun l => canonLine (l.takeWhile pyIsSpace) n v)
      else L[j]? := by
  by_cases h : firstMatchIdx n L = some j
  · rw [if_pos h]
    induction L generalizing j with
    | nil => cases h
    | cons l ls ih =>
      unfold applyParamUpdate
      unfold firstMatchIdx at h
      cases hm : lineRewriteIndent n l with
      | some ind =>
        have hmt : rwMatch n l = true := by unfold rwMatch; rw [hm]; rfl
        rw [hmt, if_pos rfl] at h
        cases h
        have hind : ind = l.takeWhile pyIsSpace :=
          lineRewriteIndent_some_indent n l ind hn hm
        subst hind
        simp [canonLine]
      | none =>
        have hmf : rwMatch n l = false := by unfold rwMatch; rw [hm]; rfl
        rw [hmf] at h
        simp only [Bool.false_eq_true, if_false] at h
        rcases Option.map_eq_some'.mp h with ⟨j', hj', rfl⟩
        simpa using ih j' hj'
  · rw [if_neg h]
    exact applyParamUpdate_get?_of_ne n v L j h

/-! ### Similarity of line lists under rewriting -/

theorem lineSim_refl (l : List Char) : LineSim l l := ⟨rfl, fun _ _ => rfl⟩

theorem lineSim_canon (l0 l : List Char) (hs : LineSim l0 l) (n : List Char) (v : PyNum)
    (hn : goodName n) (hv : 0 ≤ v.toRat) (hm : rwMatch n l = true) :
    LineSim l0 (canonLine (l.takeWhile pyIsSpace) n v) := by
  have hind : ∀ c ∈ l.takeWhile pyIsSpace, pyIsSpace c = true :=
    fun c hc => List.mem_takeWhile_imp hc
  constructor
  · rw [canonLine_takeWhile _ _ _ hind hn]
    exact hs.1
  · intro n'' hn''
    rw [hs.2 n'' hn'', rwMatch_equiv n n'' l hn hn'' hm,
        rwMatch_canonLine _ n n'' v hind hn hn'' hv]

theorem forall2_lineSim_apply (L0 L : List (List Char)) (h : List.Forall₂ LineSim L0 L)
    (n : List Char) (v : PyNum) (hn : goodName n) (hv : 0 ≤ v.toRat) :
    List.Forall₂ LineSim L0 (applyParamUpdate n v L) := by
  induction h with
  | nil => exact List.Forall₂.nil
  | @cons a b l1 l2 h1 h2 ih =>
    unfold applyParamUpdate
    cases hm : lineRewriteIndent n b with
    | some ind =>
      have hmt : rwMatch n b = true := by unfold rwMatch; rw [hm]; rfl
      have hind := lineRewriteIndent_some_indent n b ind hn hm
      refine List.Forall₂.cons ?_ h2
      show LineSim a (ind ++ (n ++ ((" = ").toList ++ formatPyNum v)))
      rw [hind]
      exact lineSim_canon a b h1 n v hn hv hmt
    | none => exact List.Forall₂.cons h1 ih

theorem firstMatchIdx_sim (n : List Char) (hn : goodName n) (L0 L : List (List Char))
    (h : List.Forall₂ LineSim L0 L) : firstMatchIdx n L = firstMatchIdx n L0 := by
  induction h with
  | nil => rfl
  | cons h1 h2 ih =>
    unfold firstMatchIdx
    rw [← h1.2 n hn, ih]

theorem forall2_get? {R : List Char → List Char → Prop} (as bs : List (List Char))
    (h : List.Forall₂ R as bs) (j : ℕ) :
    (∃ a b, as[j]? = some a ∧ bs[j]? = some b ∧ R a b) ∨
    (as[j]? = none ∧ bs[j]? = none) := by
  induction h generalizing j with
  | nil => right; simp
  | cons h1 h2 ih =>
    cases j with
    | zero => left; exact ⟨_, _, by simp, by simp, h1⟩
    | succ j' =>
      simp only [List.getElem?_cons_succ]
      exact ih j'

/-! ### Folding the whole update mapping -/

theorem foldl_apply_length (u : List (List Char × PyNum)) (L : List (List Char)) :
    (u.foldl (fun L e => applyParamUpdate e.1 e.2 L) L).length = L.length := by
  induction u generalizing L with
  | nil => rfl
  | cons e rest ih =>
    show (rest.foldl _ (applyParamUpdate e.1 e.2 L)).length = _
    rw [ih, applyParamUpdate_length]

theorem foldl_apply_sim (u : List (List Char × PyNum)) (hu : GoodUpdates u)
    (L0 L : List (List Char)) (h : List.Forall₂ LineSim L0 L) :
    List.Forall₂ LineSim L0 (u.foldl (fun L e => applyParamUpdate e.1 e.2 L) L) := by
  induction u generalizing L with
  | nil => exact h
  | cons e rest ih =>
    have he := hu e (List.mem_cons_self _ _)
    exact ih (fun e' he' => hu e' (List.mem_cons_of_mem _ he')) _
      (forall2_lineSim_apply L0 L h e.1 e.2 he.1 he.2)

theorem lastWriteEntry_mem (L0 : List (List Char)) (u : List (List Char × PyNum))
    (j : ℕ) (e : List Char × PyNum) (h : lastWriteEntry L0 u j = some e) : e ∈ u := by
  induction u with
  | nil => cases h
  | cons e0 rest ih =>
    unfold lastWriteEntry at h
    split at h
    · cases h; exact List.mem_cons_of_mem _ (ih (by assumption))
    · split at h
      · cases h; exact List.mem_cons_self _ _
      · cases h

/-- The content of every line after folding the whole update mapping over
the lines: each line `j` holds the canonical replacement of the last update
entry whose first match (computed on the reference lines `L0`) is `j`, with
the reference line's indentation; lines written by no entry come through
from the input unchanged. -/
theorem foldl_apply_get? (L0 : List (List Char)) (u : List (List Char × PyNum))
    (hu : GoodUpdates u) :
    ∀ L, List.Forall₂ LineSim L0 L → ∀ j,
      (u.foldl (fun L e => applyParamUpdate e.1 e.2 L) L)[j]? =
        (lastWriteEntry L0 u j).elim (L[j]?)
          (fun e => (L0[j]?).map (fun l0 => canonLine (l0.takeWhile pyIsSpace) e.1 e.2)) := by
  induction u with
  | nil => intro L h j; rfl
  | cons e rest ih =>
    intro L h j
    have he := hu e (List.mem_cons_self _ _)
    have hrest : GoodUpdates rest := fun e' he' => hu e' (List.mem_cons_of_mem _ he')
    have hL' : List.Forall₂ LineSim L0 (applyParamUpdate e.1 e.2 L) :=
      forall2_lineSim_apply L0 L h e.1 e.2 he.1 he.2
    show (rest.foldl _ (applyParamUpdate e.1 e.2 L))[j]? = _
    rw [ih hrest _ hL' j]
    have hcons : lastWriteEntry L0 (e :: rest) j =
        match lastWriteEntry L0 rest j with
        | some x => some x
        | none => if firstMatchIdx e.1 L0 = some j then some e else none := rfl
    rw [hcons]
    cases hlw : lastWriteEntry L0 rest j with
    | some x => rfl
    | none =>
      show (applyParamUpdate e.1 e.2 L)[j]? =
        (if firstMatchIdx e.1 L0 = some j then some e else none).elim (L[j]?) _
      rw [applyParamUpdate_get? e.1 e.2 he.1 L j, firstMatchIdx_sim e.1 he.1 L0 L h]
      by_cases hf : firstMatchIdx e.1 L0 = some j
      · rw [if_pos hf, if_pos hf]
        have hj : j < L0.length := firstMatchIdx_some_lt _ _ _ hf
        rcases forall2_get? L0 L h j with ⟨a, b, ha, hb, hr⟩ | ⟨ha, hb⟩
        · rw [ha, hb]
          show some (canonLine (b.takeWhile pyIsSpace) e.1 e.2) =
            some (canonLine (a.takeWhile pyIsSpace) e.1 e.2)
          rw [hr.1]
        · rw [List.getElem?_eq_none_iff] at ha
          omega
      · rw [if_neg hf, if_neg hf]
        rfl

/-! ### Splitting and joining lines -/

theorem pySplitLines_ne_nil (s : List Char) : pySplitLines s ≠ [] := by
  induction s with
  | nil => simp [pySplitLines]
  | cons c t ih =>
    unfold pySplitLines
    split
    · simp
    · split <;> simp

theorem pySplitLines_no_newline (s : List Char) : ∀ l ∈ pySplitLines s, '\n' ∉ l := by
  induction s with
  | nil =>
    intro l hl
    rcases List.mem_singleton.mp hl with rfl
    simp
  | cons c t ih =>
    intro l hl
    unfold pySplitLines at hl
    by_cases hc : (c == '\n') = true
    · rw [if_pos hc] at hl
      rcases List.mem_cons.mp hl with rfl | hl
      · simp
      · exact ih l hl
    · rw [if_neg hc] at hl
      cases hsp : pySplitLines t with
      | nil => exact absurd hsp (pySplitLines_ne_nil t)
      | cons l0 ls =>
        rw [hsp] at hl
        rcases List.mem_cons.mp hl with rfl | hl
        · intro hmem
          rcases List.mem_cons.mp hmem with heq | hmem
          · exact hc (beq_iff_eq.mpr heq.symm)
          · exact ih l0 (hsp ▸ List.mem_cons_self _ _) hmem
        · exact ih l (hsp ▸ List.mem_cons_of_mem _ hl)

theorem pySplitLines_of_no_newline (l : List Char) (h : '\n' ∉ l) :
    pySplitLines l = [l] := by
  induction l with
  | nil => rfl
  | cons c t ih =>
    unfold pySplitLines
    have hc : (c == '\n') = false := by
      rw [beq_eq_false_iff_ne]
      intro heq
      exact h (heq ▸ List.mem_cons_self _ _)
    rw [hc]
    show (match pySplitLines t with
      | [] => [[c]]
      | l :: ls => (c :: l) :: ls) = [c :: t]
    rw [ih (fun hm => h (List.mem_cons_of_mem _ hm))]

theorem pySplitLines_append_newline (l rest : List Char) (h : '\n' ∉ l) :
    pySplitLines (l ++ '\n' :: rest) = l :: pySplitLines rest := by
  induction l with
  | nil =>
    show pySplitLines ('\n' :: rest) = [] :: pySplitLines rest
    rw [pySplitLines, if_pos (by decide)]
  | cons c t ih =>
    show pySplitLines (c :: (t ++ '\n' :: rest)) = (c :: t) :: pySplitLines rest
    rw [pySplitLines]
    have hc : (c == '\n') = false := by
      rw [beq_eq_false_iff_ne]
      intro heq
      exact h (heq ▸ List.mem_cons_self _ _)
    rw [hc]
    simp only [Bool.false_eq_true, if_false]
    rw [ih (fun hm => h (List.mem_cons_of_mem _ hm))]

theorem pySplit_pyJoin (L : List (List Char)) (hne : L ≠ [])
    (h : ∀ l ∈ L, '\n' ∉ l) : pySplitLines (pyJoinLines L) = L := by
  induction L with
  | nil => exact absurd rfl hne
  | cons l ls ih =>
    cases ls with
    | nil => exact pySplitLines_of_no_newline l (h l (List.mem_cons_self _ _))
    | cons l2 ls2 =>
      show pySplitLines (l ++ '\n' :: pyJoinLines (l2 :: ls2)) = l :: (l2 :: ls2)
      rw [pySplitLines_append_newline l _ (h l (List.mem_cons_self _ _)),
          ih (by simp) (fun x hx => h x (List.mem_cons_of_mem _ hx))]

theorem foldl_apply_no_newline (L0 : List (List Char)) (u : List (List Char × PyNum))
    (hu : GoodUpdates u) (hnl : ∀ l ∈ L0, '\n' ∉ l) :
    ∀ l ∈ u.foldl (fun L e => applyParamUpdate e.1 e.2 L) L0, '\n' ∉ l := by
  intro l hl
  rcases List.mem_iff_getElem?.mp hl with ⟨j, hj⟩
  rw [foldl_apply_get? L0 u hu L0 (List.forall₂_same.mpr (fun x _ => lineSim_refl x)) j] at hj
  cases hlw : lastWriteEntry L0 u j with
  | none =>
    rw [hlw] at hj
    exact hnl l (List.getElem?_mem hj)
  | some e =>
    rw [hlw] at hj
    simp only [Option.elim_some] at hj
    rcases Option.map_eq_some'.mp hj with ⟨l0, hl0, rfl⟩
    have he := hu e (lastWriteEntry_mem L0 u j e hlw)
    refine canonLine_no_newline _ _ _ ?_ he.1 he.2
    intro hmem
    exact hnl l0 (List.getElem?_mem hl0) ((List.takeWhile_sublist _).subset hmem)

theorem lastWriteEntry_none_of_all (L0 : List (List Char)) (u : List (List Char × PyNum))
    (j : ℕ) (h : ∀ e ∈ u, firstMatchIdx e.1 L0 ≠ some j) :
    lastWriteEntry L0 u j = none := by
  induction u with
  | nil => rfl
  | cons e rest ih =>
    unfold lastWriteEntry
    rw [ih (fun e' he' => h e' (List.mem_cons_of_mem _ he'))]
    rw [if_neg (h e (List.mem_cons_self _ _))]

theorem lastWriteEntry_some_first (L0 : List (List Char)) (u : List (List Char × PyNum))
    (j : ℕ) (e : List Char × PyNum) (h : lastWriteEntry L0 u j = some e) :
    firstMatchIdx e.1 L0 = some j := by
  induction u with
  | nil => cases h
  | cons e0 rest ih =>
    unfold lastWriteEntry at h
    split at h
    · cases h; exact ih (by assumption)
    · split at h
      · cases h; assumption
      · cases h

theorem pyJoin_cons_head (c : Char) (l : List Char) (ls : List (List Char)) :
    pyJoinLines ((c :: l) :: ls) = c :: pyJoinLines (l :: ls) := by
  cases ls <;> rfl

theorem pyJoin_pySplit (s : List Char) : pyJoinLines (pySplitLines s) = s := by
  induction s with
  | nil => rfl
  | cons c t ih =>
    rw [pySplitLines]
    by_cases hc : (c == '\n') = true
    · rw [if_pos hc]
      have hceq : c = '\n' := beq_iff_eq.mp hc
      subst hceq
      cases hsp : pySplitLines t with
      | nil => exact absurd hsp (pySplitLines_ne_nil t)
      | cons l0 ls =>
        show pyJoinLines ([] :: l0 :: ls) = '\n' :: t
        show [] ++ '\n' :: pyJoinLines (l0 :: ls) = '\n' :: t
        rw [List.nil_append, ← hsp, ih]
    · rw [if_neg hc]
      cases hsp : pySplitLines t with
      | nil => exact absurd hsp (pySplitLines_ne_nil t)
      | cons l0 ls =>
        show pyJoinLines ((c :: l0) :: ls) = c :: t
        rw [pyJoin_cons_head, ← hsp, ih]

/-! ## The rewrite engine: the claims -/

/-- C3 counterexample: `update_code_with_parameters` is not idempotent.
With the single update `{rate: -1}` on `rate = 1\nrate = 2`, the first
application rewrites line 1 to `rate = -1`; that line no longer matches the
pattern (whose value group cannot start with `'-'`), so a second
application rewrites the other assignment as well. -/
theorem update_code_not_idempotent :
    update_code_with_parameters
        (update_code_with_parameters (("rate = 1\nrate = 2").toList)
          [((("rate").toList), PyNum.int (-1))])
        [((("rate").toList), PyNum.int (-1))] ≠
      update_code_with_parameters (("rate = 1\nrate = 2").toList)
        [((("rate").toList), PyNum.int (-1))] ∧
    update_code_with_parameters (("rate = 1\nrate = 2").toList)
        [((("rate").toList), PyNum.int (-1))] = ("rate = -1\nrate = 2").toList ∧
    update_code_with_parameters
        (update_code_with_parameters (("rate = 1\nrate = 2").toList)
          [((("rate").toList), PyNum.int (-1))])
        [((("rate").toList), PyNum.int (-1))] = ("rate = -1\nrate = -1").toList := by
  refine ⟨?_, by decide, by decide⟩
  decide

/-- C3 amended: `update_code_with_parameters` is idempotent for every
update mapping whose names are well-behaved (nonempty, no whitespace or
`'='` inside — every Python identifier qualifies) and whose values are
nonnegative.  A negative value breaks idempotence (see the counterexample)
because its rendell text no longer matches the assignment pattern; a
degenerate name such as the empty string also breaks it by shifting the
greedy indent group. -/
theorem update_code_idempotent (code : List Char) (u : List (List Char × PyNum))
    (hu : GoodUpdates u) :
    update_code_with_parameters (update_code_with_parameters code u) u =
      update_code_with_parameters code u := by
  have hsim0 : List.Forall₂ LineSim (pySplitLines code) (pySplitLines code) :=
    List.forall₂_same.mpr (fun x _ => lineSim_refl x)
  have hnl1 : ∀ l ∈ (u.foldl (fun L e => applyParamUpdate e.1 e.2 L) (pySplitLines code)),
      '\n' ∉ l :=
    foldl_apply_no_newline _ u hu (pySplitLines_no_newline code)
  have hne1 : (u.foldl (fun L e => applyParamUpdate e.1 e.2 L) (pySplitLines code)) ≠ [] := by
    intro hcnil
    have h1 := foldl_apply_length u (pySplitLines code)
    rw [hcnil] at h1
    exact pySplitLines_ne_nil code (List.length_eq_zero.mp h1.symm)
  unfold update_code_with_parameters
  rw [pySplit_pyJoin _ hne1 hnl1]
  congr 1
  apply List.ext_getElem?
  intro j
  rw [foldl_apply_get? (pySplitLines code) u hu _ (foldl_apply_sim u hu _ _ hsim0) j]
  cases hlw : lastWriteEntry (pySplitLines code) u j with
  | none => rfl
  | some e =>
    rw [foldl_apply_get? (pySplitLines code) u hu _ hsim0 j, hlw]
    rfl

theorem update_code_idempotent_witness :
    update_code_with_parameters
        (update_code_with_parameters (("rate = 1\nrate = 2").toList)
          [((("rate").toList), PyNum.int 5)])
        [((("rate").toList), PyNum.int 5)] =
      update_code_with_parameters (("rate = 1\nrate = 2").toList)
        [((("rate").toList), PyNum.int 5)] :=
  update_code_idempotent (("rate = 1\nrate = 2").toList)
    [((("rate").toList), PyNum.int 5)] (by decide)

/-- C5 counterexample: the claim's "comments … are never altered" part is
false.  On `rate = 0.5 # tune` the whole line — trailing comment included —
is replaced by `rate = 2`, so the comment text disappears from the script. -/
theorem update_code_comment_destroyed :
    update_code_with_parameters (("rate = 0.5 # tune").toList)
        [((("rate").toList), PyNum.float 2)] = ("rate = 2").toList ∧
    containsTok (("rate = 0.5 # tune").toList) (("# tune").toList) = true ∧
    containsTok (update_code_with_parameters (("rate = 0.5 # tune").toList)
        [((("rate").toList), PyNum.float 2)]) (("# tune").toList) = false := by
  refine ⟨by decide, by decide, by decide⟩

/-- C5 amended: for an update mapping of well-behaved names to nonnegative
numbers, applied left to right, the rewrite changes only, per updated name,
the first line matching that name's assignment pattern; such a line is
replaced in its entirety by the original leading whitespace, the name,
` = ` and the formatted value (so any trailing content of that line,
including a comment, is discarded, and a line inside a multi-line string
that lexically looks like an assignment can be matched); every other line
is byte-identical, and names with no matching line contribute nothing — if
no name matches at all, the script is returned verbatim. -/
theorem update_code_frame (code : List Char) (u : List (List Char × PyNum))
    (hu : GoodUpdates u) :
    (pySplitLines (update_code_with_parameters code u)).length =
      (pySplitLines code).length ∧
    (∀ j, (∀ e ∈ u, firstMatchIdx e.1 (pySplitLines code) ≠ some j) →
      (pySplitLines (update_code_with_parameters code u))[j]? =
        (pySplitLines code)[j]?) ∧
    (∀ j, (pySplitLines (update_code_with_parameters code u))[j]? ≠
        (pySplitLines code)[j]? →
      ∃ e ∈ u, firstMatchIdx e.1 (pySplitLines code) = some j ∧
        (pySplitLines (update_code_with_parameters code u))[j]? =
          ((pySplitLines code)[j]?).map
            (fun l => canonLine (l.takeWhile pyIsSpace) e.1 e.2)) ∧
    ((∀ e ∈ u, firstMatchIdx e.1 (pySplitLines code) = none) →
      update_code_with_parameters code u = code) := by
  have hsim0 : List.Forall₂ LineSim (pySplitLines code) (pySplitLines code) :=
    List.forall₂_same.mpr (fun x _ => lineSim_refl x)
  have hnl1 : ∀ l ∈ (u.foldl (fun L e => applyParamUpdate e.1 e.2 L) (pySplitLines code)),
      '\n' ∉ l :=
    foldl_apply_no_newline _ u hu (pySplitLines_no_newline code)
  have hne1 : (u.foldl (fun L e => applyParamUpdate e.1 e.2 L) (pySplitLines code)) ≠ [] := by
    intro hcnil
    have h1 := foldl_apply_length u (pySplitLines code)
    rw [hcnil] at h1
    exact pySplitLines_ne_nil code (List.length_eq_zero.mp h1.symm)
  have hout : pySplitLines (update_code_with_parameters code u) =
      u.foldl (fun L e => applyParamUpdate e.1 e.2 L) (pySplitLines code) := by
    unfold update_code_with_parameters
    exact pySplit_pyJoin _ hne1 hnl1
  have hchar := foldl_apply_get? (pySplitLines code) u hu (pySplitLines code) hsim0
  refine ⟨by rw [hout]; exact foldl_apply_length u _, ?_, ?_, ?_⟩
  · intro j hj
    rw [hout, hchar j, lastWriteEntry_none_of_all _ u j hj]
    rfl
  · intro j hj
    rw [hout, hchar j] at hj ⊢
    cases hlw : lastWriteEntry (pySplitLines code) u j with
    | none => rw [hlw] at hj; exact absurd rfl hj
    | some e =>
      refine ⟨e, lastWriteEntry_mem _ u j e hlw, lastWriteEntry_some_first _ u j e hlw, ?_⟩
      rfl
  · intro hall
    have hfold : (u.foldl (fun L e => applyParamUpdate e.1 e.2 L) (pySplitLines code)) =
        pySplitLines code := by
      apply List.ext_getElem?
      intro j
      rw [hchar j, lastWriteEntry_none_of_all _ u j (fun e he => by rw [hall e he]; simp)]
      rfl
    unfold update_code_with_parameters
    rw [hfold, pyJoin_pySplit]

theorem update_code_frame_witness :
    (pySplitLines (update_code_with_parameters (("x_rate = 5\ny = 2").toList)
        [((("x_rate").toList), PyNum.int 9)]))[1]? =
      (pySplitLines (("x_rate = 5\ny = 2").toList))[1]? ∧
    (pySplitLines (update_code_with_parameters (("x_rate = 5\ny = 2").toList)
        [((("x_rate").toList), PyNum.int 9)]))[1]? = some (("y = 2").toList) ∧
    update_code_with_parameters (("x = 1").toList) [((("rate").toList), PyNum.int 7)] =
      ("x = 1").toList := by
  have h := update_code_frame (("x_rate = 5\ny = 2").toList)
    [((("x_rate").toList), PyNum.int 9)] (by decide)
  have h2 := update_code_frame (("x = 1").toList) [((("rate").toList), PyNum.int 7)] (by decide)
  exact ⟨h.2.1 1 (by decide), by decide, h2.2.2.2 (by decide)⟩

/-! ### Detection: one parameter per name, first occurrence wins -/

theorem matchPatternLine_name (spec : PatternSpec) (line : List Char) (hit : LineHit)
    (h : matchPatternLine spec line = some hit) : hit.name = identOf line := by
  simp only [matchPatternLine] at h
  split at h
  · cases h
  · split at h
    · split at h
      · cases h; rfl
      · cases h
    · cases h

theorem tryPatterns_name (seen : List (List Char)) (line : List Char) (specs : List PatternSpec) (hit : LineHit)
    (h : tryPatterns seen line specs = some hit) : hit.name = identOf line := by
  induction specs with
  | nil => cases h
  | cons spec rest ih =>
    unfold tryPatterns at h
    cases hm : matchPatternLine spec line with
    | some hit0 =>
      rw [hm] at h
      simp only [] at h
      split at h
      · exact ih h
      · cases h; exact matchPatternLine_name spec line _ hm
    | none =>
      rw [hm] at h
      exact ih h

theorem tryPatterns_seen_hit (seen : List (List Char)) (line : List Char) (specs : List PatternSpec)
    (h : seen.contains (identOf line) = true) : tryPatterns seen line specs = none := by
  induction specs with
  | nil => rfl
  | cons spec rest ih =>
    unfold tryPatterns
    cases hm : matchPatternLine spec line with
    | some hit0 =>
      have hn := matchPatternLine_name spec line hit0 hm
      simp only [hn, h, if_true]
      exact ih
    | none => exact ih

theorem tryPatterns_seen_irrel (seen : List (List Char)) (line : List Char) (specs : List PatternSpec)
    (h : seen.contains (identOf line) = false) :
    tryPatterns seen line specs = tryPatterns [] line specs := by
  induction specs with
  | nil => rfl
  | cons spec rest ih =>
    unfold tryPatterns
    cases hm : matchPatternLine spec line with
    | some hit0 =>
      have hn := matchPatternLine_name spec line hit0 hm
      simp only [hn, h, Bool.false_eq_true, if_false]
      rfl
    | none => exact ih

theorem scanLine_some_not_seen (seen : List (List Char)) (l : List Char) (hit : LineHit)
    (h : scanLine seen l = some hit) : seen.contains hit.name = false := by
  have hn : hit.name = identOf l := by
    unfold scanLine at h; exact tryPatterns_name seen l _ hit h
  rw [hn]
  cases hcon : seen.contains (identOf l)
  · rfl
  · have hz : scanLine seen l = none := by
      unfold scanLine; exact tryPatterns_seen_hit seen l _ hcon
    rw [hz] at h; cases h

theorem scanLine_some_rawLineName (seen : List (List Char)) (l : List Char) (hit : LineHit)
    (hg : ((l.dropWhile pyIsSpace).isEmpty ||
      ((l.dropWhile pyIsSpace).head? == some '#')) = false)
    (h : scanLine seen l = some hit) : rawLineName l = some hit.name := by
  unfold rawLineName
  simp only [hg, Bool.false_eq_true, if_false]
  have hc : seen.contains (identOf l) = false := by
    have hn : hit.name = identOf l := by
      unfold scanLine at h; exact tryPatterns_name seen l _ hit h
    rw [← hn]; exact scanLine_some_not_seen seen l hit h
  rw [← tryPatterns_seen_irrel seen l _ hc]
  unfold scanLine at h
  rw [h]
  rfl

theorem scanLine_none_seen (seen : List (List Char)) (l m : List Char)
    (h : scanLine seen l = none) (hr : rawLineName l = some m) :
    seen.contains m = true := by
  simp only [rawLineName] at hr
  split at hr
  · cases hr
  · rcases Option.map_eq_some'.mp hr with ⟨hit0, h0, rfl⟩
    have hn := tryPatterns_name [] l _ hit0 h0
    cases hcon : seen.contains (identOf l) with
    | false =>
      unfold scanLine at h
      rw [tryPatterns_seen_irrel seen l _ hcon, h0] at h
      cases h
    | true => rw [hn]; exact hcon

theorem apply_parameter_hints_keeps_line (p : Parameter) :
    (apply_parameter_hints p).line_number = p.line_number := by
  unfold apply_parameter_hints
  (dsimp only []; split <;> try rfl) <;> (split <;> try rfl) <;>
    (split <;> try rfl) <;> (split <;> try rfl) <;> (split <;> try rfl) <;>
    (split <;> try rfl) <;> (split <;> try rfl) <;> (split <;> rfl)

theorem mkParamOfHit_name (hit : LineHit) (ln : ℕ) :
    (mkParamOfHit hit ln).name = hit.name := by
  unfold mkParamOfHit
  rw [(apply_parameter_hints_keeps_name_value _).1]
  rfl

theorem mkParamOfHit_line (hit : LineHit) (ln : ℕ) :
    (mkParamOfHit hit ln).line_number = ln := by
  unfold mkParamOfHit
  rw [apply_parameter_hints_keeps_line]
  rfl

theorem detectGo_mem_structure :
    ∀ (ls : List (List Char)) (ln : ℕ) (seen : List (List Char)) (acc : List Parameter)
      (p : Parameter), p ∈ detectGo ls ln seen acc →
      p ∈ acc ∨ (seen.contains p.name = false ∧
        ∃ k, firstDetectIdx p.name ls = some k ∧ p.line_number = ln + k) := by
  intro ls
  induction ls with
  | nil =>
    intro ln seen acc p hp
    exact Or.inl hp
  | cons l ls ih =>
    intro ln seen acc p hp
    simp only [detectGo] at hp
    by_cases hg : ((l.dropWhile pyIsSpace).isEmpty ||
        ((l.dropWhile pyIsSpace).head? == some '#')) = true
    · rw [if_pos hg] at hp
      rcases ih (ln + 1) seen acc p hp with h | ⟨hs, k, hk, hln⟩
      · exact Or.inl h
      · have hno : rawLineName l ≠ some p.name := by
          unfold rawLineName
          rw [if_pos hg]
          simp
        refine Or.inr ⟨hs, k + 1, ?_, by omega⟩
        unfold firstDetectIdx
        rw [if_neg hno, hk]
        rfl
    · rw [if_neg hg] at hp
      have hgf : ((l.dropWhile pyIsSpace).isEmpty ||
          ((l.dropWhile pyIsSpace).head? == some '#')) = false :=
        Bool.eq_false_iff.mpr hg
      cases hsc : scanLine seen l with
      | some hit =>
        rw [hsc] at hp
        have hraw : rawLineName l = some hit.name :=
          scanLine_some_rawLineName seen l hit hgf hsc
        rcases ih (ln + 1) (hit.name :: seen) (acc ++ [mkParamOfHit hit ln]) p hp with
          h | ⟨hs, k, hk, hln⟩
        · rcases List.mem_append.mp h with h1 | h2
          · exact Or.inl h1
          · rcases List.mem_singleton.mp h2 with rfl
            refine Or.inr ⟨?_, 0, ?_, ?_⟩
            · rw [mkParamOfHit_name]
              exact scanLine_some_not_seen seen l hit hsc
            · unfold firstDetectIdx
              rw [if_pos (by rw [mkParamOfHit_name]; exact hraw)]
            · rw [mkParamOfHit_line, Nat.add_zero]
        · have hs2 : (p.name == hit.name || seen.contains p.name) = false := by
            rw [← List.contains_cons]
            exact hs
          rcases Bool.or_eq_false_iff.mp hs2 with ⟨hs21, hs22⟩
          refine Or.inr ⟨hs22, k + 1, ?_, by omega⟩
          have hno : rawLineName l ≠ some p.name := by
            intro hco
            rw [hraw] at hco
            exact (beq_eq_false_iff_ne.mp hs21) (Option.some_inj.mp hco).symm
          unfold firstDetectIdx
          rw [if_neg hno, hk]
          rfl
      | none =>
        rw [hsc] at hp
        rcases ih (ln + 1) seen acc p hp with h | ⟨hs, k, hk, hln⟩
        · exact Or.inl h
        · have hno : rawLineName l ≠ some p.name := by
            intro hco
            have hx := scanLine_none_seen seen l p.name hsc hco
            rw [hx] at hs
            cases hs
          refine Or.inr ⟨hs, k + 1, ?_, by omega⟩
          unfold firstDetectIdx
          rw [if_neg hno, hk]
          rfl

theorem detectGo_names_nodup :
    ∀ (ls : List (List Char)) (ln : ℕ) (seen : List (List Char)) (acc : List Parameter),
      (acc.map Parameter.name).Nodup → (∀ p ∈ acc, seen.contains p.name = true) →
      ((detectGo ls ln seen acc).map Parameter.name).Nodup := by
  intro ls
  induction ls with
  | nil =>
    intro ln seen acc h1 h2
    exact h1
  | cons l ls ih =>
    intro ln seen acc h1 h2
    simp only [detectGo]
    by_cases hg : ((l.dropWhile pyIsSpace).isEmpty ||
        ((l.dropWhile pyIsSpace).head? == some '#')) = true
    · rw [if_pos hg]
      exact ih (ln + 1) seen acc h1 h2
    · rw [if_neg hg]
      cases hsc : scanLine seen l with
      | none => exact ih (ln + 1) seen acc h1 h2
      | some hit =>
        apply ih
        · rw [List.map_append]
          refine List.Nodup.append h1 (by simp) ?_
          intro a ha hb
          rcases List.mem_map.mp ha with ⟨p, hpacc, rfl⟩
          simp only [List.map_cons, List.map_nil, List.mem_singleton,
            mkParamOfHit_name] at hb
          have h2p := h2 p hpacc
          rw [hb, scanLine_some_not_seen seen l hit hsc] at h2p
          cases h2p
        · intro p hp
          rcases List.mem_append.mp hp with h | h
          · have h2p := h2 p h
            rw [List.contains_cons, h2p]
            simp
          · rcases List.mem_singleton.mp h with rfl
            rw [List.contains_cons, mkParamOfHit_name]
            simp

/-- C6: `detect_parameters` reports each name at most once (the produced
name list has no duplicates), and the Parameter kept for a name records the
first line, top to bottom, whose scan reports that name — later
re-assignments of the same name are ignored; and for an updated name,
`update_code_with_parameters` leaves every line other than the first line
matching that name's assignment pattern unchanged. -/
theorem detect_first_match_semantics (code : List Char) :
    ((detect_parameters code).map Parameter.name).Nodup ∧
    (∀ p ∈ detect_parameters code,
      ∃ k, firstDetectIdx p.name (pySplitLines code) = some k ∧
        p.line_number = 1 + k) ∧
    (∀ name v j, goodName name → 0 ≤ PyNum.toRat v →
      firstMatchIdx name (pySplitLines code) ≠ some j →
      (pySplitLines (update_code_with_parameters code [(name, v)]))[j]? =
        (pySplitLines code)[j]?) := by
  refine ⟨?_, ?_, ?_⟩
  · exact detectGo_names_nodup (pySplitLines code) 1 [] [] (by simp)
      (fun p hp => absurd hp (List.not_mem_nil p))
  · intro p hp
    rcases detectGo_mem_structure (pySplitLines code) 1 [] [] p hp with h | ⟨hs, k, hk, hln⟩
    · exact absurd h (List.not_mem_nil p)
    · exact ⟨k, hk, hln⟩
  · intro name v j hgn hv hne
    have hu : GoodUpdates [(name, v)] := by
      intro e he
      rcases List.mem_singleton.mp he with rfl
      exact ⟨hgn, hv⟩
    have hnl1 : ∀ l ∈ ([(name, v)].foldl (fun L e => applyParamUpdate e.1 e.2 L)
        (pySplitLines code)), '\n' ∉ l :=
      foldl_apply_no_newline _ _ hu (pySplitLines_no_newline code)
    have hne1 : ([(name, v)].foldl (fun L e => applyParamUpdate e.1 e.2 L)
        (pySplitLines code)) ≠ [] := by
      intro hcnil
      have h1 := foldl_apply_length [(name, v)] (pySplitLines code)
      rw [hcnil] at h1
      exact pySplitLines_ne_nil code (List.length_eq_zero.mp h1.symm)
    unfold update_code_with_parameters
    rw [pySplit_pyJoin _ hne1 hnl1]
    show (applyParamUpdate name v (pySplitLines code))[j]? = (pySplitLines code)[j]?
    exact applyParamUpdate_get?_of_ne name v _ j hne

theorem detect_first_match_semantics_witness :
    (pySplitLines (update_code_with_parameters (("x = 1\nrate = 2\nrate = 3").toList)
        [((("rate").toList), PyNum.int 9)]))[0]? =
      (pySplitLines (("x = 1\nrate = 2\nrate = 3").toList))[0]? ∧
    ((detect_parameters (("x = 1\nrate = 2\nrate = 3").toList)).map Parameter.name).Nodup :=
  ⟨(detect_first_match_semantics (("x = 1\nrate = 2\nrate = 3").toList)).2.2
      (("rate").toList) (PyNum.int 9) 0 (by decide) (by decide) (by decide),
   (detect_first_match_semantics (("x = 1\nrate = 2\nrate = 3").toList)).1⟩

/-! ### Round-trip machinery: parsing back a rendered integer -/

theorem digitVal_digitChar (d : ℕ) (h : d < 10) : digitVal (digitChar d) = d := by
  interval_cases d <;> rfl

theorem digitsToNat_append_singleton (a : List Char) (c : Char) :
    digitsToNat (a ++ [c]) = 10 * digitsToNat a + digitVal c := by
  unfold digitsToNat
  rw [List.foldl_append]
  rfl

theorem digitsToNat_natDigitsGo (fuel : ℕ) :
    ∀ n, n < fuel → digitsToNat (natDigitsGo fuel n) = n := by
  induction fuel with
  | zero => intro n h; omega
  | succ fuel ih =>
    intro n h
    unfold natDigitsGo
    by_cases h10 : n < 10
    · rw [if_pos h10]
      simp [digitsToNat, digitVal_digitChar n h10]
    · rw [if_neg h10, digitsToNat_append_singleton]
      rw [ih (n / 10) (by omega), digitVal_digitChar (n % 10) (by omega)]
      omega

theorem digitsToNat_natDigits (n : ℕ) : digitsToNat (natDigits n) = n :=
  digitsToNat_natDigitsGo (n + 1) n (Nat.lt_succ_self n)

theorem parseIntStr_natDigits (m : ℕ) : parseIntStr (natDigits m) = (m : ℚ) := by
  unfold parseIntStr
  rw [digitsToNat_natDigits]

theorem formatPyNum_int_nonneg (n : ℤ) (h : 0 ≤ n) :
    formatPyNum (PyNum.int n) = natDigits n.toNat := by
  show intDigits n = natDigits n.toNat
  unfold intDigits
  rw [if_neg (not_lt.mpr h)]

theorem mem_takeWhile_pred (p : Char → Bool) (l : List Char) (c : Char)
    (h : c ∈ l.takeWhile p) : p c = true := by
  induction l with
  | nil => cases h
  | cons a t ih =>
    rw [List.takeWhile_cons] at h
    split at h
    · rcases List.mem_cons.mp h with rfl | h2
      · assumption
      · exact ih h2
    · cases h

theorem takeWhile_of_all (p : Char → Bool) (l : List Char)
    (h : ∀ c ∈ l, p c = true) : l.takeWhile p = l := by
  have h2 := takeWhile_all_append p l [] h
  simpa using h2

theorem dropWhile_of_all (p : Char → Bool) (l : List Char)
    (h : ∀ c ∈ l, p c = true) : l.dropWhile p = [] := by
  have h2 := dropWhile_all_append p l [] h
  simpa using h2

theorem digits_no_dot (ds : List Char) (hdd : ∀ c ∈ ds, isDigitChar c = true) :
    ds.contains '.' = false := by
  cases hc : ds.contains '.'
  · rfl
  · have hmem : '.' ∈ ds := List.mem_of_elem_eq_true hc
    exact absurd (hdd '.' hmem) (by decide)

/-! ### The value matchers on all-digit text -/

theorem matchIntValue_digits (ds : List Char) (hne : ds ≠ [])
    (hdd : ∀ c ∈ ds, isDigitChar c = true) : matchIntValue ds = some ds := by
  cases hds : ds with
  | nil => exact absurd hds hne
  | cons c t =>
    subst hds
    simp only [matchIntValue]
    rw [takeWhile_of_all _ _ hdd]
    rfl

theorem matchFloatValue_digits (ds : List Char) (hne : ds ≠ [])
    (hdd : ∀ c ∈ ds, isDigitChar c = true) : matchFloatValue ds = some ds := by
  cases hds : ds with
  | nil => exact absurd hds hne
  | cons c t =>
    subst hds
    simp only [matchFloatValue]
    rw [takeWhile_of_all _ _ hdd, dropWhile_of_all _ _ hdd]
    rfl

theorem matchEqValue_digits (b : Bool) (ds : List Char) (hne : ds ≠ [])
    (hdd : ∀ c ∈ ds, isDigitChar c = true) :
    matchEqValue b ((" = ").toList ++ ds) = some ds := by
  unfold matchEqValue
  have h1 : ((" = ").toList ++ ds).dropWhile pyIsSpace = '=' :: (' ' :: ds) := rfl
  rw [h1]
  show (if b then matchFloatValue else matchIntValue) ((' ' :: ds).dropWhile pyIsSpace) = some ds
  have h2 : (' ' :: ds).dropWhile pyIsSpace = ds := by
    show (' ' :: ds).dropWhile pyIsSpace = ds
    rw [List.dropWhile_cons]
    rw [if_pos (by decide)]
    cases hds : ds with
    | nil => rfl
    | cons c t =>
      rw [List.dropWhile_cons,
        if_neg (by rw [isDigitChar_not_space c (hdd c (hds ▸ List.mem_cons_self c t))]; decide)]
  rw [h2]
  cases b
  · exact matchIntValue_digits ds hne hdd
  · exact matchFloatValue_digits ds hne hdd

theorem matchEqValue_int_imp_float (cs v : List Char)
    (h : matchEqValue false cs = some v) : (matchEqValue true cs).isSome = true := by
  unfold matchEqValue at h ⊢
  split at h
  · exact matchIntValue_imp_float _ v h
  · cases h

/-! ### What a successful pattern match tells about the line -/

theorem matchPatternLine_facts (spec : PatternSpec) (line : List Char) (hit : LineHit)
    (h : matchPatternLine spec line = some hit) :
    hit.name ≠ [] ∧ (∀ c ∈ hit.name, isIdentChar c = true) ∧
    spec.nameOk (lowerStr hit.name) = true := by
  simp only [matchPatternLine] at h
  split at h
  · cases h
  · rename_i hne0
    split at h
    · rename_i hok0
      split at h
      · rename_i v hv
        cases h
        refine ⟨?_, ?_, hok0⟩
        · intro h0
          have h1 : (line.dropWhile pyIsSpace).takeWhile isIdentChar = [] := h0
          rw [h1] at hne0
          exact hne0 rfl
        · intro c hc
          exact mem_takeWhile_pred _ _ c hc
      · cases h
    · cases h

theorem matchPatternLine_eqValue (spec : PatternSpec) (line : List Char) (hit : LineHit)
    (h : matchPatternLine spec line = some hit) :
    (matchEqValue true ((line.dropWhile pyIsSpace).dropWhile isIdentChar)).isSome = true := by
  simp only [matchPatternLine] at h
  split at h
  · cases h
  · split at h
    · split at h
      · rename_i v hv
        cases hb : spec.useFloat
        · rw [hb] at hv
          exact matchEqValue_int_imp_float _ v hv
        · rw [hb] at hv
          rw [hv]
          rfl
      · cases h
    · cases h

theorem tryPatterns_facts (seen : List (List Char)) (line : List Char)
    (specs : List PatternSpec) (hit : LineHit)
    (h : tryPatterns seen line specs = some hit) :
    hit.name ≠ [] ∧ (∀ c ∈ hit.name, isIdentChar c = true) ∧
    (∃ s ∈ specs, s.nameOk (lowerStr hit.name) = true) ∧
    (matchEqValue true ((line.dropWhile pyIsSpace).dropWhile isIdentChar)).isSome = true := by
  induction specs with
  | nil => cases h
  | cons spec rest ih =>
    unfold tryPatterns at h
    cases hm : matchPatternLine spec line with
    | some hit0 =>
      rw [hm] at h
      simp only [] at h
      split at h
      · rcases ih h with ⟨a, b, ⟨s, hs, hok⟩, d⟩
        exact ⟨a, b, ⟨s, List.mem_cons_of_mem _ hs, hok⟩, d⟩
      · cases h
        obtain ⟨a, b, c⟩ := matchPatternLine_facts spec line _ hm
        exact ⟨a, b, ⟨spec, List.mem_cons_self _ _, c⟩,
          matchPatternLine_eqValue spec line _ hm⟩
    | none =>
      rw [hm] at h
      rcases ih h with ⟨a, b, ⟨s, hs, hok⟩, d⟩
      exact ⟨a, b, ⟨s, List.mem_cons_of_mem _ hs, hok⟩, d⟩

theorem caseInsensStarts_self_append (n r : List Char) :
    caseInsensStarts n (n ++ r) = true := by
  unfold caseInsensStarts lowerStr
  rw [List.map_append, List.isPrefixOf_iff_prefix]
  exact List.prefix_append _ _

/-- A line whose fresh scan reports `name` is matched by the rewrite
pattern for `name`: detection match implies rewrite match. -/
theorem rawLineName_imp_rwMatch (l name : List Char) (h : rawLineName l = some name) :
    rwMatch name l = true := by
  simp only [rawLineName] at h
  split at h
  · cases h
  · rcases Option.map_eq_some'.mp h with ⟨hit, hh, rfl⟩
    obtain ⟨ha, hb, _, hd⟩ := tryPatterns_facts [] l PARAMETER_PATTERNS hit hh
    have hname := tryPatterns_name [] l PARAMETER_PATTERNS hit hh
    have hgn : goodName hit.name :=
      ⟨ha, fun c hc => ⟨isIdentChar_not_space c (hb c hc), isIdentChar_ne_eqsign c (hb c hc)⟩⟩
    rw [rwMatch_eq_tryTop _ _ hgn, rewriteTryAt_top, Bool.and_eq_true]
    constructor
    · have hsplit : l.dropWhile pyIsSpace =
          hit.name ++ (l.dropWhile pyIsSpace).dropWhile isIdentChar := by
        rw [hname]
        show l.dropWhile pyIsSpace =
          (l.dropWhile pyIsSpace).takeWhile isIdentChar ++
            (l.dropWhile pyIsSpace).dropWhile isIdentChar
        exact (List.takeWhile_append_dropWhile _ _).symm
      rw [hsplit]
      exact caseInsensStarts_self_append _ _
    · have hlen : (l.dropWhile pyIsSpace).drop hit.name.length =
          (l.dropWhile pyIsSpace).dropWhile isIdentChar := by
        rw [hname]
        show (l.dropWhile pyIsSpace).drop
            ((l.dropWhile pyIsSpace).takeWhile isIdentChar).length = _
        exact drop_takeWhile_len isIdentChar (l.dropWhile pyIsSpace)
      rw [hlen]
      exact hd

/-! ### Locating and rewriting the first matching line -/

theorem rwMatch_mem_firstMatchIdx (n : List Char) (L : List (List Char)) (l : List Char)
    (hl : l ∈ L) (hm : rwMatch n l = true) : ∃ j, firstMatchIdx n L = some j := by
  induction L with
  | nil => cases hl
  | cons l0 ls ih =>
    unfold firstMatchIdx
    by_cases h0 : rwMatch n l0 = true
    · rw [if_pos h0]
      exact ⟨0, rfl⟩
    · rw [if_neg h0]
      rcases List.mem_cons.mp hl with rfl | hmem
      · exact absurd hm h0
      · rcases ih hmem with ⟨j, hj⟩
        exact ⟨j + 1, by rw [hj]; rfl⟩

theorem firstMatchIdx_decomp (n : List Char) (L : List (List Char)) (j : ℕ)
    (h : firstMatchIdx n L = some j) :
    ∃ pre cl rest, L = pre ++ cl :: rest ∧ pre.length = j ∧ rwMatch n cl = true ∧
      ∀ l ∈ pre, rwMatch n l = false := by
  induction L generalizing j with
  | nil => cases h
  | cons l0 ls ih =>
    unfold firstMatchIdx at h
    by_cases h0 : rwMatch n l0 = true
    · rw [if_pos h0] at h
      cases h
      exact ⟨[], l0, ls, rfl, rfl, h0, by intro l hl; cases hl⟩
    · rw [if_neg h0] at h
      rcases Option.map_eq_some'.mp h with ⟨j', hj', rfl⟩
      rcases ih j' hj' with ⟨pre, cl, rest, hL, hlen, hcl, hpre⟩
      refine ⟨l0 :: pre, cl, rest, by rw [hL]; rfl, by simp [hlen], hcl, ?_⟩
      intro l hl
      rcases List.mem_cons.mp hl with rfl | hmem
      · exact Bool.eq_false_iff.mpr h0
      · exact hpre l hmem

theorem applyParamUpdate_decomp (name : List Char) (v : PyNum) (hn : goodName name)
    (pre : List (List Char)) (cl : List Char) (rest : List (List Char))
    (hpre : ∀ l ∈ pre, rwMatch name l = false) (hcl : rwMatch name cl = true) :
    applyParamUpdate name v (pre ++ cl :: rest) =
      pre ++ canonLine (cl.takeWhile pyIsSpace) name v :: rest := by
  induction pre with
  | nil =>
    simp only [List.nil_append]
    unfold applyParamUpdate
    cases hm : lineRewriteIndent name cl with
    | none =>
      unfold rwMatch at hcl
      rw [hm] at hcl
      cases hcl
    | some ind =>
      rw [lineRewriteIndent_some_indent name cl ind hn hm]
      rfl
  | cons l pre' ih =>
    simp only [List.cons_append]
    unfold applyParamUpdate
    cases hm : lineRewriteIndent name l with
    | some ind =>
      have hml : rwMatch name l = true := by
        unfold rwMatch
        rw [hm]
        rfl
      rw [hpre l (List.mem_cons_self _ _)] at hml
      cases hml
    | none =>
      rw [ih (fun l' hl' => hpre l' (List.mem_cons_of_mem _ hl'))]

/-! ### Scanning the canonical replacement line -/

theorem canon_dropSpace (ind name ds : List Char) (hind : ∀ c ∈ ind, pyIsSpace c = true)
    (hne : name ≠ []) (hid : ∀ c ∈ name, isIdentChar c = true) :
    (ind ++ (name ++ ((" = ").toList ++ ds))).dropWhile pyIsSpace =
      name ++ ((" = ").toList ++ ds) := by
  rw [dropWhile_all_append _ _ _ hind]
  cases hn0 : name with
  | nil => exact absurd hn0 hne
  | cons c t =>
    rw [List.cons_append, List.dropWhile_cons,
      if_neg (by rw [isIdentChar_not_space c (hid c (hn0 ▸ List.mem_cons_self c t))]; decide)]

theorem canon_indent (ind name ds : List Char) (hind : ∀ c ∈ ind, pyIsSpace c = true)
    (hne : name ≠ []) (hid : ∀ c ∈ name, isIdentChar c = true) :
    (ind ++ (name ++ ((" = ").toList ++ ds))).takeWhile pyIsSpace = ind := by
  rw [takeWhile_all_append _ _ _ hind]
  cases hn0 : name with
  | nil => exact absurd hn0 hne
  | cons c t =>
    rw [List.cons_append, List.takeWhile_cons,
      if_neg (by rw [isIdentChar_not_space c (hid c (hn0 ▸ List.mem_cons_self c t))]; decide),
      List.append_nil]

theorem canon_ident (name ds : List Char) (hid : ∀ c ∈ name, isIdentChar c = true) :
    (name ++ ((" = ").toList ++ ds)).takeWhile isIdentChar = name := by
  rw [takeWhile_all_append _ _ _ hid]
  rw [show (((" = ").toList ++ ds)).takeWhile isIdentChar = [] from rfl]
  exact List.append_nil name

theorem canon_identDrop (name ds : List Char) (hid : ∀ c ∈ name, isIdentChar c = true) :
    (name ++ ((" = ").toList ++ ds)).dropWhile isIdentChar = (" = ").toList ++ ds := by
  rw [dropWhile_all_append _ _ _ hid]
  rfl

theorem matchPatternLine_canon (s : PatternSpec) (ind name ds : List Char)
    (hind : ∀ c ∈ ind, pyIsSpace c = true) (hne : name ≠ [])
    (hid : ∀ c ∈ name, isIdentChar c = true)
    (hdne : ds ≠ []) (hdd : ∀ c ∈ ds, isDigitChar c = true) :
    matchPatternLine s (ind ++ (name ++ ((" = ").toList ++ ds))) =
      if s.nameOk (lowerStr name) = true then some ⟨ind, name, ds⟩ else none := by
  simp only [matchPatternLine]
  rw [canon_dropSpace ind name ds hind hne hid, canon_ident name ds hid,
      canon_identDrop name ds hid, canon_indent ind name ds hind hne hid,
      matchEqValue_digits s.useFloat ds hdne hdd]
  have hie : name.isEmpty = false := by
    cases name
    · exact absurd rfl hne
    · rfl
  rw [hie]
  simp only [Bool.false_eq_true, if_false]

theorem tryPatterns_canon (ind name ds : List Char)
    (hind : ∀ c ∈ ind, pyIsSpace c = true) (hne : name ≠ [])
    (hid : ∀ c ∈ name, isIdentChar c = true)
    (hdne : ds ≠ []) (hdd : ∀ c ∈ ds, isDigitChar c = true) :
    ∀ specs : List PatternSpec, (∃ s ∈ specs, s.nameOk (lowerStr name) = true) →
      tryPatterns [] (ind ++ (name ++ ((" = ").toList ++ ds))) specs =
        some ⟨ind, name, ds⟩ := by
  intro specs
  induction specs with
  | nil =>
    rintro ⟨s, hs, _⟩
    exact absurd hs (List.not_mem_nil s)
  | cons s rest ih =>
    rintro ⟨s0, hs0, hok0⟩
    unfold tryPatterns
    rw [matchPatternLine_canon s ind name ds hind hne hid hdne hdd]
    by_cases hok : s.nameOk (lowerStr name) = true
    · rw [if_pos hok]
      rfl
    · rw [if_neg hok]
      apply ih
      rcases List.mem_cons.mp hs0 with rfl | h
      · exact absurd hok0 hok
      · exact ⟨s0, h, hok0⟩

theorem canon_guard (ind name ds : List Char) (hind : ∀ c ∈ ind, pyIsSpace c = true)
    (hne : name ≠ []) (hid : ∀ c ∈ name, isIdentChar c = true) :
    (((ind ++ (name ++ ((" = ").toList ++ ds))).dropWhile pyIsSpace).isEmpty ||
      (((ind ++ (name ++ ((" = ").toList ++ ds))).dropWhile pyIsSpace).head? ==
        some '#')) = false := by
  rw [canon_dropSpace ind name ds hind hne hid]
  cases hn0 : name with
  | nil => exact absurd hn0 hne
  | cons c t =>
    have hidc : isIdentChar c = true := hid c (hn0 ▸ List.mem_cons_self c t)
    show (c == '#') = false
    exact beq_eq_false_iff_ne.mpr (fun h => absurd (h ▸ hidc) (by decide))

/-! ### The detection loop reaches the replacement line -/

theorem detectGo_acc_sub :
    ∀ (ls : List (List Char)) (ln : ℕ) (seen : List (List Char)) (acc : List Parameter)
      (p : Parameter), p ∈ acc → p ∈ detectGo ls ln seen acc := by
  intro ls
  induction ls with
  | nil =>
    intro ln seen acc p hp
    exact hp
  | cons l ls ih =>
    intro ln seen acc p hp
    simp only [detectGo]
    by_cases hg : ((l.dropWhile pyIsSpace).isEmpty ||
        ((l.dropWhile pyIsSpace).head? == some '#')) = true
    · rw [if_pos hg]
      exact ih _ _ _ p hp
    · rw [if_neg hg]
      cases hsc : scanLine seen l with
      | some hit => exact ih _ _ _ p (List.mem_append_left _ hp)
      | none => exact ih _ _ _ p hp

theorem mkParamOfHit_value (hit : LineHit) (ln : ℕ) :
    (mkParamOfHit hit ln).value =
      (if hit.valueStr.contains '.' = true then parseFloatStr hit.valueStr
       else parseIntStr hit.valueStr) := by
  unfold mkParamOfHit
  rw [(apply_parameter_hints_keeps_name_value _).2]
  rfl

theorem detectGo_finds (name cl : List Char) (rest : List (List Char)) (hit0 : LineHit)
    (hcl : tryPatterns [] cl PARAMETER_PATTERNS = some hit0)
    (hname : hit0.name = name)
    (hgd : ((cl.dropWhile pyIsSpace).isEmpty ||
      ((cl.dropWhile pyIsSpace).head? == some '#')) = false) :
    ∀ (pre : List (List Char)) (ln : ℕ) (seen : List (List Char)) (acc : List Parameter),
      seen.contains name = false →
      (∀ l ∈ pre, rawLineName l ≠ some name) →
      ∃ p ∈ detectGo (pre ++ cl :: rest) ln seen acc,
        p.name = name ∧ p.value = (mkParamOfHit hit0 0).value := by
  intro pre
  induction pre with
  | nil =>
    intro ln seen acc hseen hpre
    simp only [List.nil_append, detectGo]
    rw [if_neg (by rw [hgd]; exact Bool.false_ne_true)]
    have hc : seen.contains (identOf cl) = false := by
      have hni := tryPatterns_name [] cl PARAMETER_PATTERNS hit0 hcl
      rw [← hni, hname]
      exact hseen
    have hscan : scanLine seen cl = some hit0 := by
      unfold scanLine
      rw [tryPatterns_seen_irrel seen cl _ hc, hcl]
    rw [hscan]
    refine ⟨mkParamOfHit hit0 ln, ?_, ?_, ?_⟩
    · exact detectGo_acc_sub rest _ _ _ _
        (List.mem_append_right _ (List.mem_singleton.mpr rfl))
    · rw [mkParamOfHit_name]
      exact hname
    · rw [mkParamOfHit_value, mkParamOfHit_value]
  | cons l pre' ih =>
    intro ln seen acc hseen hpre
    simp only [List.cons_append, detectGo]
    by_cases hg : ((l.dropWhile pyIsSpace).isEmpty ||
        ((l.dropWhile pyIsSpace).head? == some '#')) = true
    · rw [if_pos hg]
      exact ih (ln + 1) seen acc hseen (fun l' hl' => hpre l' (List.mem_cons_of_mem _ hl'))
    · rw [if_neg hg]
      have hgf : ((l.dropWhile pyIsSpace).isEmpty ||
          ((l.dropWhile pyIsSpace).head? == some '#')) = false :=
        Bool.eq_false_iff.mpr hg
      cases hsc : scanLine seen l with
      | some hit =>
        have hrl : rawLineName l = some hit.name :=
          scanLine_some_rawLineName seen l hit hgf hsc
        have hnen : hit.name ≠ name :=
          fun hEq => hpre l (List.mem_cons_self _ _) (by rw [hrl, hEq])
        have hseen2 : (hit.name :: seen).contains name = false := by
          rw [List.contains_cons]
          exact Bool.or_eq_false_iff.mpr
            ⟨beq_eq_false_iff_ne.mpr (fun h => hnen h.symm), hseen⟩
        exact ih (ln + 1) _ _ hseen2 (fun l' hl' => hpre l' (List.mem_cons_of_mem _ hl'))
      | none =>
        exact ih (ln + 1) seen acc hseen (fun l' hl' => hpre l' (List.mem_cons_of_mem _ hl'))

theorem firstDetectIdx_mem (name : List Char) (L : List (List Char)) (k : ℕ)
    (h : firstDetectIdx name L = some k) : ∃ l ∈ L, rawLineName l = some name := by
  induction L generalizing k with
  | nil => cases h
  | cons l0 ls ih =>
    unfold firstDetectIdx at h
    by_cases h0 : rawLineName l0 = some name
    · exact ⟨l0, List.mem_cons_self _ _, h0⟩
    · rw [if_neg h0] at h
      rcases Option.map_eq_some'.mp h with ⟨k', hk', _⟩
      rcases ih k' hk' with ⟨l, hl, hrl⟩
      exact ⟨l, List.mem_cons_of_mem _ hl, hrl⟩

/-! ### The round-trip claim -/

/-- C4 counterexample: round-trip fidelity fails for non-integral values.
`n_x` is detected in `n_x = 1`; rewriting with `{n_x: 3.5}` produces
`n_x = 3.5`, but the `n_[a-z_]+` pattern's integer value group matches only
the `3` before the dot, so re-detection reports value `3`, not `3.5`. -/
theorem detect_rewrite_roundtrip_cex :
    (detect_parameters (("n_x = 1").toList)).map Parameter.name = [("n_x").toList] ∧
    update_code_with_parameters (("n_x = 1").toList)
        [((("n_x").toList), PyNum.float (mkRat 7 2))] = ("n_x = 3.5").toList ∧
    ∀ p ∈ detect_parameters (update_code_with_parameters (("n_x = 1").toList)
        [((("n_x").toList), PyNum.float (mkRat 7 2))]),
      p.name = ("n_x").toList ∧ p.value ≠ mkRat 7 2 := by
  refine ⟨by decide, by decide, by decide⟩

/-- C4 amended: round-trip fidelity holds for nonnegative whole-number
values.  If `detect_parameters` reports a parameter named `name` in a
script, then for every integer `n ≥ 0`, re-running detection on
`update_code_with_parameters(script, {name: n})` yields a parameter named
`name` whose value is exactly `n`.  For non-integral values the integer
value group of some patterns truncates the re-detected value (see the
counterexample), and negative values are not matched at all. -/
theorem detect_rewrite_roundtrip (code name : List Char) (n : ℤ) (hn : 0 ≤ n)
    (hdet : ∃ p ∈ detect_parameters code, p.name = name) :
    ∃ p ∈ detect_parameters (update_code_with_parameters code [(name, PyNum.int n)]),
      p.name = name ∧ p.value = (n : ℚ) := by
  obtain ⟨p0, hp0, hp0n⟩ := hdet
  rcases detectGo_mem_structure (pySplitLines code) 1 [] [] p0 hp0 with
    habs | ⟨_, k, hk, _⟩
  · exact absurd habs (List.not_mem_nil p0)
  rw [hp0n] at hk
  obtain ⟨l0, hl0mem, hl0⟩ := firstDetectIdx_mem name (pySplitLines code) k hk
  have hhit : ∃ hit, tryPatterns [] l0 PARAMETER_PATTERNS = some hit ∧ hit.name = name := by
    simp only [rawLineName] at hl0
    split at hl0
    · cases hl0
    · rcases Option.map_eq_some'.mp hl0 with ⟨hit, hh, hhn⟩
      exact ⟨hit, hh, hhn⟩
  obtain ⟨hitd, hhd, hhdn⟩ := hhit
  obtain ⟨hne0, hid0, hnameok, _⟩ := tryPatterns_facts [] l0 PARAMETER_PATTERNS hitd hhd
  rw [hhdn] at hne0 hid0 hnameok
  have hgn : goodName name :=
    ⟨hne0, fun c hc => ⟨isIdentChar_not_space c (hid0 c hc), isIdentChar_ne_eqsign c (hid0 c hc)⟩⟩
  have hrw0 : rwMatch name l0 = true := rawLineName_imp_rwMatch l0 name hl0
  obtain ⟨j, hj⟩ := rwMatch_mem_firstMatchIdx name (pySplitLines code) l0 hl0mem hrw0
  obtain ⟨pre, cl, rest, hsplit, hlen, hclm, hprem⟩ := firstMatchIdx_decomp name _ j hj
  have hdd : ∀ c ∈ natDigits n.toNat, isDigitChar c = true := natDigits_all_digit _
  have hdne : natDigits n.toNat ≠ [] := natDigits_ne_nil _
  have hindsp : ∀ c ∈ cl.takeWhile pyIsSpace, pyIsSpace c = true :=
    fun c hc => mem_takeWhile_pred _ _ c hc
  have hfmt : formatPyNum (PyNum.int n) = natDigits n.toNat := formatPyNum_int_nonneg n hn
  have hcanon : canonLine (cl.takeWhile pyIsSpace) name (PyNum.int n) =
      (cl.takeWhile pyIsSpace) ++ (name ++ ((" = ").toList ++ natDigits n.toNat)) := by
    unfold canonLine
    rw [hfmt]
  have happ : applyParamUpdate name (PyNum.int n) (pySplitLines code) =
      pre ++ canonLine (cl.takeWhile pyIsSpace) name (PyNum.int n) :: rest := by
    rw [hsplit]
    exact applyParamUpdate_decomp name _ hgn pre cl rest hprem hclm
  have hvnn : (0 : ℚ) ≤ (PyNum.int n).toRat := by
    show (0 : ℚ) ≤ (n : ℚ)
    exact_mod_cast hn
  have hnl : ∀ l ∈ pre ++ canonLine (cl.takeWhile pyIsSpace) name (PyNum.int n) :: rest,
      '\n' ∉ l := by
    intro l hl
    rcases List.mem_append.mp hl with h | h
    · exact pySplitLines_no_newline code l (by rw [hsplit]; exact List.mem_append_left _ h)
    · rcases List.mem_cons.mp h with rfl | h2
      · refine canonLine_no_newline _ _ _ ?_ hgn hvnn
        intro hmem
        have hclmem : cl ∈ pySplitLines code := by
          rw [hsplit]
          exact List.mem_append_right _ (List.mem_cons_self _ _)
        exact pySplitLines_no_newline code cl hclmem ((List.takeWhile_sublist _).subset hmem)
      · exact pySplitLines_no_newline code l
          (by rw [hsplit]; exact List.mem_append_right _ (List.mem_cons_of_mem _ h2))
  have hsplit2 : pySplitLines (update_code_with_parameters code [(name, PyNum.int n)]) =
      pre ++ canonLine (cl.takeWhile pyIsSpace) name (PyNum.int n) :: rest := by
    show pySplitLines (pyJoinLines (applyParamUpdate name (PyNum.int n) (pySplitLines code))) = _
    rw [happ]
    exact pySplit_pyJoin _ (by simp) hnl
  obtain ⟨p, hpmem, hpn, hpv⟩ := detectGo_finds name
      ((cl.takeWhile pyIsSpace) ++ (name ++ ((" = ").toList ++ natDigits n.toNat))) rest
      ⟨cl.takeWhile pyIsSpace, name, natDigits n.toNat⟩
      (tryPatterns_canon (cl.takeWhile pyIsSpace) name (natDigits n.toNat) hindsp hne0 hid0
        hdne hdd PARAMETER_PATTERNS hnameok)
      rfl
      (canon_guard _ name (natDigits n.toNat) hindsp hne0 hid0)
      pre 1 [] [] rfl
      (fun l hl hco => by
        have hc2 := rawLineName_imp_rwMatch l name hco
        rw [hprem l hl] at hc2
        cases hc2)
  refine ⟨p, ?_, hpn, ?_⟩
  · show p ∈ detectGo
      (pySplitLines (update_code_with_parameters code [(name, PyNum.int n)])) 1 [] []
    rw [hsplit2, hcanon]
    exact hpmem
  · rw [hpv, mkParamOfHit_value]
    show (if (natDigits n.toNat).contains '.' = true then parseFloatStr (natDigits n.toNat)
      else parseIntStr (natDigits n.toNat)) = (n : ℚ)
    rw [digits_no_dot _ hdd]
    simp only [Bool.false_eq_true, if_false]
    rw [parseIntStr_natDigits]
    have hcast : ((n.toNat : ℤ) : ℚ) = (n : ℚ) := by rw [Int.toNat_of_nonneg hn]
    exact_mod_cast hcast

theorem detect_rewrite_roundtrip_witness :
    ∃ p ∈ detect_parameters (update_code_with_parameters (("n_x = 1").toList)
        [((("n_x").toList), PyNum.int 7)]),
      p.name = ("n_x").toList ∧ p.value = ((7 : ℤ) : ℚ) :=
  detect_rewrite_roundtrip (("n_x = 1").toList) (("n_x").toList) 7 (by decide)
    (by refine ⟨(detect_parameters (("n_x = 1").toList)).head (by decide), ?_, by decide⟩
        exact List.head_mem _)

end MLPlatform
